import Mathlib

/-!
# PL011 UART driver (`src/08_scheduler/src/uart_pl011.c`)

A shallow embedding of the driver.  The peripheral is a record of register
values together with the log of every register access the driver performs.
Registers keep what is written to them, except the receive-status/error-clear
register, where a write is the command that clears the error flags.
The header `uart_pl011.h` (bit masks, register block, result codes) is not
part of the sources at hand: the bit masks are a parameter `Consts` of every
operation, and `pl011` gives the values of the PL011 register map.
-/

namespace UartPl011

/-! ## Data model -/

/-- Result codes of the driver (the enumeration `uart_error`). -/
inductive uart_error
  | UART_OK
  | UART_INVALID_ARGUMENT_BAUDRATE
  | UART_INVALID_ARGUMENT_WORDSIZE
  | UART_INVALID_ARGUMENT_STOP_BITS
  | UART_RECEIVE_ERROR
  | UART_NO_DATA
  deriving DecidableEq, Repr

/-- Line configuration handed to `uart_configure` (the struct `uart_config`). -/
structure uart_config where
  data_bits : Nat
  stop_bits : Nat
  parity : Bool
  baudrate : Nat
  deriving DecidableEq, Repr

/-- Bit masks and identifiers the driver takes from `uart_pl011.h`. -/
structure Consts where
  DR_DATA_MASK : Nat
  FR_BUSY : Nat
  FR_RXFE : Nat
  FR_TXFF : Nat
  RSRECR_ERR_MASK : Nat
  LCRH_FEN : Nat
  LCRH_PEN : Nat
  LCRH_EPS : Nat
  LCRH_STP2 : Nat
  LCRH_SPS : Nat
  LCRH_WLEN_5BITS : Nat
  LCRH_WLEN_6BITS : Nat
  LCRH_WLEN_7BITS : Nat
  LCRH_WLEN_8BITS : Nat
  CR_UARTEN : Nat
  IMSC_RXIM : Nat
  RX_INTERRUPT : Nat
  BE_INTERRUPT : Nat
  ECR_BE : Nat
  UART0_INTERRUPT : Nat
  deriving DecidableEq, Repr

/-- Bit assignment of the PL011 register map (ARM DDI 0183), used for the
concrete evaluations; the interrupt number is the line a board gives UART0. -/
def pl011 : Consts where
  DR_DATA_MASK := 0xFF
  FR_BUSY := 1 <<< 3
  FR_RXFE := 1 <<< 4
  FR_TXFF := 1 <<< 5
  RSRECR_ERR_MASK := 0xF
  LCRH_FEN := 1 <<< 4
  LCRH_PEN := 1 <<< 1
  LCRH_EPS := 1 <<< 2
  LCRH_STP2 := 1 <<< 3
  LCRH_SPS := 1 <<< 7
  LCRH_WLEN_5BITS := 0 <<< 5
  LCRH_WLEN_6BITS := 1 <<< 5
  LCRH_WLEN_7BITS := 2 <<< 5
  LCRH_WLEN_8BITS := 3 <<< 5
  CR_UARTEN := 1 <<< 0
  IMSC_RXIM := 1 <<< 4
  RX_INTERRUPT := 1 <<< 4
  BE_INTERRUPT := 1 <<< 9
  ECR_BE := 1 <<< 2
  UART0_INTERRUPT := 44

/-- The registers of the block `uart_registers` the driver touches. -/
inductive Reg
  | DR | RSRECR | FR | IBRD | FBRD | LCRH | CR | IMSC | MIS | ICR
  deriving DecidableEq, Repr

/-- One externally visible action of the driver. -/
inductive Event
  | read (r : Reg)
  | write (r : Reg) (v : Nat)
  | irq_register_isr (irq : Nat)
  deriving DecidableEq, Repr

/-- The peripheral as the driver sees it: the value each register holds, the
values the flag register will show at the reads to come (`frNext`; after the
last of them the flag register keeps its value), and the log of accesses,
oldest first. -/
structure Uart where
  DR : Nat
  RSRECR : Nat
  FR : Nat
  IBRD : Nat
  FBRD : Nat
  LCRH : Nat
  CR : Nat
  IMSC : Nat
  MIS : Nat
  ICR : Nat
  frNext : List Nat
  trace : List Event
  deriving DecidableEq, Repr

/-- Ways in which a call does not come back with a result. -/
inductive Fault
  | hang
  | out_of_bounds
  deriving DecidableEq, Repr

deriving instance DecidableEq for Except

/-- `static const uint32_t refclock = 24000000u;` -/
def refclock : Nat := 24000000

/-! ## Register access -/

/-- Value held by register `r`. -/
def Uart.get (s : Uart) : Reg → Nat
  | .DR => s.DR
  | .RSRECR => s.RSRECR
  | .FR => s.FR
  | .IBRD => s.IBRD
  | .FBRD => s.FBRD
  | .LCRH => s.LCRH
  | .CR => s.CR
  | .IMSC => s.IMSC
  | .MIS => s.MIS
  | .ICR => s.ICR

/-- Store `v` in register `r` (the flag register is read-only for the driver
and is never the target). -/
def Uart.set (s : Uart) (r : Reg) (v : Nat) : Uart :=
  match r with
  | .DR => { s with DR := v }
  | .RSRECR => { s with RSRECR := v }
  | .FR => { s with FR := v }
  | .IBRD => { s with IBRD := v }
  | .FBRD => { s with FBRD := v }
  | .LCRH => { s with LCRH := v }
  | .CR => { s with CR := v }
  | .IMSC => { s with IMSC := v }
  | .MIS => { s with MIS := v }
  | .ICR => { s with ICR := v }

/-- The flag register moves on to the next value the hardware presents. -/
def Uart.tick (s : Uart) : Uart :=
  match s.frNext with
  | [] => s
  | v :: rest => { s with FR := v, frNext := rest }

/-- A volatile read `uart0->r`: yields the value held, logs the access; a read
of the flag register lets the hardware flags move on. -/
def rd (r : Reg) (s : Uart) : Nat × Uart :=
  let s1 : Uart := { s with trace := s.trace ++ [Event.read r] }
  (s.get r, if r = Reg.FR then s1.tick else s1)

/-- A volatile write `uart0->r = v`: logs the access and stores the 32-bit
value.  The receive-status/error-clear register is the exception: a write to it
is the command that clears the error flags, whatever the value written (the
write of `ECR_BE` under the comment "Clear the error flag" in `uart_isr` relies
on it), so after the write the register holds no flag. -/
def wr (r : Reg) (v : Nat) (s : Uart) : Uart :=
  { s.set r (if r = Reg.RSRECR then 0 else v) with trace := s.trace ++ [Event.write r v] }

/-- Bitwise complement on 32 bits: `~x` as it enters a `uint32_t` operation. -/
def bnot32 (x : Nat) : Nat := (2 ^ 32 - 1) ^^^ (x % 2 ^ 32)

/-- Compound assignment `uart0->r op= ...`: one read followed by one write. -/
def rmw (r : Reg) (f : Nat → Nat) (s : Uart) : Uart :=
  let p := rd r s
  wr r (f p.1) p.2

/-- The loop `while (uart0->FR & mask);`, one poll per unit of fuel. -/
def pollWhileSet (mask : Nat) : Nat → Uart → Except Fault Uart
  | 0, _ => .error Fault.hang
  | fuel + 1, s =>
    let p := rd Reg.FR s
    if p.1 &&& mask ≠ 0 then pollWhileSet mask fuel p.2 else .ok p.2

/-- The loop `while (uart0->FR & mask);`.  The fuel covers every value the
flag register is still going to show: when it runs out the flag is set in the
value the register keeps for good, and the loop never ends. -/
def busyWait (mask : Nat) (s : Uart) : Except Fault Uart :=
  pollWhileSet mask (s.frNext.length + 1) s

/-! ## Double-precision arithmetic

Finite non-negative `double` values are modelled by the rational numbers they
denote; every operation rounds its exact result to the binary64 grid, to
nearest, ties to even. -/

/-- Binary exponent of a non-zero rational: the `e` with `2^e ≤ |x| < 2^(e+1)`. -/
def binade (x : ℚ) : ℤ :=
  let e0 : ℤ := (Nat.log2 x.num.natAbs : ℤ) - (Nat.log2 x.den : ℤ)
  if |x| < (2 : ℚ) ^ e0 then e0 - 1 else e0

/-- Nearest integer, ties to the even one. -/
def roundNearestEven (y : ℚ) : ℤ :=
  let n : ℤ := ⌊y⌋
  let f : ℚ := y - n
  if f < 1 / 2 then n
  else if 1 / 2 < f then n + 1
  else if n % 2 = 0 then n else n + 1

/-- Rounding of an exact result to binary64: 53 significant bits, least
exponent -1022 (below it the grid is the subnormal one).  Overflow to
infinity is not represented; no value in the driver comes near it. -/
def fl64 (x : ℚ) : ℚ :=
  if x = 0 then 0
  else
    let q : ℚ := (2 : ℚ) ^ (max (binade x) (-1022) - 52)
    (roundNearestEven (x / q) : ℚ) * q

/-- Truncation toward zero. -/
def trunc (x : ℚ) : ℤ := if 0 ≤ x then ⌊x⌋ else ⌈x⌉

/-- `modf` of the C library: (fractional part, integral part), both exact. -/
def modf (x : ℚ) : ℚ × ℚ := (x - trunc x, trunc x)

/-- Conversion of a `double` to an unsigned integer of `w` bits
(`(uint16_t)`, `(uint8_t)`): truncation; the wrap-around stands for the
values C leaves undefined. -/
def toUInt (w : Nat) (x : ℚ) : Nat := (trunc x).toNat % 2 ^ w

/-- Lines 32-37 of `uart_configure`: the values stored in IBRD and FBRD. -/
def baud_divisor (baudrate : Nat) : Nat × Nat :=
  let baudrate_divisor : ℚ := fl64 ((refclock : ℚ) / (((16 * baudrate) % 2 ^ 32 : ℕ) : ℚ))
  let p := modf baudrate_divisor
  let fractpart := p.1
  let intpart := p.2
  (toUInt 16 intpart, toUInt 8 (fl64 (fl64 (fractpart * 64) + 1 / 2)))

/-! ## The driver -/

/-- Lines 39-77 of `uart_configure`: the local `lcrh`, built up from zero. -/
def lcrh_value (k : Consts) (config : uart_config) : Nat :=
  let lcrh : Nat := 0
  let lcrh : Nat :=
    match config.data_bits with
    | 5 => lcrh ||| k.LCRH_WLEN_5BITS
    | 6 => lcrh ||| k.LCRH_WLEN_6BITS
    | 7 => lcrh ||| k.LCRH_WLEN_7BITS
    | 8 => lcrh ||| k.LCRH_WLEN_8BITS
    | _ => lcrh
  let lcrh : Nat :=
    if config.parity then
      ((lcrh ||| k.LCRH_PEN) ||| k.LCRH_EPS) ||| k.LCRH_SPS
    else
      ((lcrh &&& bnot32 k.LCRH_PEN) &&& bnot32 k.LCRH_EPS) &&& bnot32 k.LCRH_SPS
  let lcrh : Nat :=
    if config.stop_bits = 1 then lcrh &&& bnot32 k.LCRH_STP2
    else if config.stop_bits = 2 then lcrh ||| k.LCRH_STP2
    else lcrh
  lcrh ||| k.LCRH_FEN

/-- The call `irq_register_isr(UART0_INTERRUPT, uart_isr)` into the interrupt
controller, recorded in the log. -/
def irq_register_isr (irq : Nat) (s : Uart) : Uart :=
  { s with trace := s.trace ++ [Event.irq_register_isr irq] }

/-- `uart_error uart_configure(uart_config* config)`. -/
def uart_configure (k : Consts) (config : uart_config) (s : Uart) :
    Except Fault (uart_error × Uart) :=
  if config.data_bits < 5 ∨ config.data_bits > 8 then
    .ok (uart_error.UART_INVALID_ARGUMENT_WORDSIZE, s)
  else if config.stop_bits = 0 ∨ config.stop_bits > 2 then
    .ok (uart_error.UART_INVALID_ARGUMENT_STOP_BITS, s)
  else if config.baudrate < 110 ∨ config.baudrate > 460800 then
    .ok (uart_error.UART_INVALID_ARGUMENT_BAUDRATE, s)
  else
    let s1 := rmw Reg.CR (fun v => v &&& bnot32 k.CR_UARTEN) s
    match busyWait k.FR_BUSY s1 with
    | .error e => .error e
    | .ok s2 =>
      let s3 := rmw Reg.LCRH (fun v => v &&& bnot32 k.LCRH_FEN) s2
      let d := baud_divisor config.baudrate
      let s4 := wr Reg.IBRD d.1 s3
      let s5 := wr Reg.FBRD d.2 s4
      let s6 := wr Reg.LCRH (lcrh_value k config) s5
      let s7 := rmw Reg.IMSC (fun v => v ||| k.IMSC_RXIM) s6
      let s8 := irq_register_isr k.UART0_INTERRUPT s7
      let s9 := rmw Reg.CR (fun v => v ||| k.CR_UARTEN) s8
      .ok (uart_error.UART_OK, s9)

/-- `void uart_putchar(char c)`; a `char` is a byte `0..255`. -/
def uart_putchar (k : Consts) (c : Nat) (s : Uart) : Except Fault Uart :=
  match busyWait k.FR_TXFF s with
  | .error e => .error e
  | .ok s1 => .ok (wr Reg.DR c s1)

/-- Capacity of the digit buffer: `char buf[8];`. -/
def bufSize : Nat := 8

/-- First loop of `uart_write_uint`: `while (num != 0) { ... }`, yielding the
final index `i` and the buffer.  A store past the end of `buf` is a fault.  The
first argument is fuel, one unit per iteration. -/
def digitLoop : Nat → Nat → Nat → List Nat → Except Fault (Nat × List Nat)
  | 0, num, i, buf => if num ≠ 0 then .error Fault.hang else .ok (i, buf)
  | fuel + 1, num, i, buf =>
    if num ≠ 0 then
      let remainder := (num % 10) % 2 ^ 8
      if i < bufSize then
        digitLoop fuel (num / 10) (i + 1) (buf.set i ((48 + remainder) % 2 ^ 8))
      else .error Fault.out_of_bounds
    else .ok (i, buf)

/-- Second loop of `uart_write_uint`: `for (i--; i >= 0; i--) uart_putchar(buf[i]);`
the first argument being the value of `i` the first loop has left. -/
def emitLoop (k : Consts) : Nat → List Nat → Uart → Except Fault Uart
  | 0, _, s => .ok s
  | j + 1, buf, s =>
    if j < bufSize then
      match uart_putchar k (buf.getD j 0) s with
      | .error e => .error e
      | .ok s1 => emitLoop k j buf s1
    else .error Fault.out_of_bounds

/-- `void uart_write_uint(uint32_t num)`.  The buffer starts out with
indeterminate content (here zeros); each iteration of the first loop divides
`num` by ten, so `num` units of fuel are never used up. -/
def uart_write_uint (k : Consts) (num : Nat) (s : Uart) : Except Fault Uart :=
  match digitLoop num num 0 (List.replicate bufSize 0) with
  | .error e => .error e
  | .ok (i, buf) => emitLoop k i buf s

/-- `uart_error uart_getchar(char* c)`: the result code, the content of `*c`
after the call (`c` before it), and the peripheral.  The store into `*c`
converts the masked register value to a `char`, a byte. -/
def uart_getchar (k : Consts) (c : Nat) (s : Uart) : uart_error × Nat × Uart :=
  let p := rd Reg.FR s
  if p.1 &&& k.FR_RXFE ≠ 0 then
    (uart_error.UART_NO_DATA, c, p.2)
  else
    let d := rd Reg.DR p.2
    let c1 := (d.1 &&& k.DR_DATA_MASK) % 2 ^ 8
    let e := rd Reg.RSRECR d.2
    if e.1 &&& k.RSRECR_ERR_MASK ≠ 0 then
      (uart_error.UART_RECEIVE_ERROR, c1, rmw Reg.RSRECR (fun v => v &&& k.RSRECR_ERR_MASK) e.2)
    else
      (uart_error.UART_OK, c1, e.2)

/-- `void uart_write(const char* data)`: `data` lists the bytes the pointer
refers to, the terminating NUL being the end of the list; a zero byte inside
the list ends the loop like the terminator does. -/
def uart_write (k : Consts) : List Nat → Uart → Except Fault Uart
  | [], s => .ok s
  | c :: rest, s =>
    if c ≠ 0 then
      match uart_putchar k c s with
      | .error e => .error e
      | .ok s1 => uart_write k rest s1
    else .ok s

/-- Character codes of a string literal of the source. -/
def literal (text : String) : List Nat := text.toList.map Char.toNat

/-- The diagnostic text of the break-error branch of `uart_isr`. -/
def breakMsg : List Nat := literal "Break error detected!\n"

/-- `void uart_isr(void)`. -/
def uart_isr (k : Consts) (s : Uart) : Except Fault Uart :=
  let p := rd Reg.MIS s
  let status := p.1
  if status &&& k.RX_INTERRUPT ≠ 0 then
    let d := rd Reg.DR p.2
    let c := (d.1 &&& k.DR_DATA_MASK) % 2 ^ 8
    match uart_putchar k c d.2 with
    | .error e => .error e
    | .ok s1 => if c = 13 then uart_write k (literal "\n") s1 else .ok s1
  else if status &&& k.BE_INTERRUPT ≠ 0 then
    match uart_write k breakMsg p.2 with
    | .error e => .error e
    | .ok s1 =>
      let s2 := wr Reg.RSRECR k.ECR_BE s1
      let s3 := wr Reg.ICR k.BE_INTERRUPT s2
      .ok s3
  else .ok p.2

/-! ## Observations on the log -/

/-- Values written to register `r`, in order. -/
def writesTo (r : Reg) : List Event → List Nat
  | [] => []
  | Event.write r1 v :: t => if r1 = r then v :: writesTo r t else writesTo r t
  | _ :: t => writesTo r t

/-- The register writes of a log, in order. -/
def writes : List Event → List (Reg × Nat)
  | [] => []
  | Event.write r v :: t => (r, v) :: writes t
  | _ :: t => writes t

/-- Does the log contain a write to any register? -/
def hasWrite : List Event → Bool
  | [] => false
  | Event.write _ _ :: _ => true
  | _ :: t => hasWrite t

/-- An idle peripheral with all registers zero, for evaluations. -/
def idle : Uart :=
  { DR := 0, RSRECR := 0, FR := 0, IBRD := 0, FBRD := 0, LCRH := 0, CR := 0,
    IMSC := 0, MIS := 0, ICR := 0, frNext := [], trace := [] }

/-- The flag `mask` is clear in the flag register now or in one of the values
it is going to show: the wait on that flag comes to an end. -/
def drains (mask : Nat) (s : Uart) : Prop :=
  ∃ v ∈ s.FR :: s.frNext, v &&& mask = 0

instance (mask : Nat) (s : Uart) : Decidable (drains mask s) := by
  unfold drains; infer_instance

/-- The value the flag register keeps for good once the hardware has shown
all the values in `frNext`. -/
def Uart.steady (s : Uart) : Nat := s.frNext.getLast?.getD s.FR

/-- The flag `mask` ends up clear: every wait on it comes to an end. -/
def settles (mask : Nat) (s : Uart) : Prop := s.steady &&& mask = 0

instance (mask : Nat) (s : Uart) : Decidable (settles mask s) := by
  unfold settles; infer_instance

/-- The three fields of a configuration are in their ranges. -/
def valid_config (c : uart_config) : Prop :=
  (5 ≤ c.data_bits ∧ c.data_bits ≤ 8) ∧ (c.stop_bits = 1 ∨ c.stop_bits = 2) ∧
    (110 ≤ c.baudrate ∧ c.baudrate ≤ 460800)

instance (c : uart_config) : Decidable (valid_config c) := by
  unfold valid_config; infer_instance

/-- Result code of a call, if it comes back. -/
def retcode (r : Except Fault (uart_error × Uart)) : Option uart_error :=
  match r with
  | .ok p => some p.1
  | .error _ => none

/-- Word-length encoding the register map assigns to a word size of 5, 6, 7
or 8 bits. -/
def wlen_encoding (k : Consts) (data_bits : Nat) : Nat :=
  if data_bits = 5 then k.LCRH_WLEN_5BITS
  else if data_bits = 6 then k.LCRH_WLEN_6BITS
  else if data_bits = 7 then k.LCRH_WLEN_7BITS
  else k.LCRH_WLEN_8BITS

/-- The fields of the line-control register are 32-bit masks that occupy
different bits: no word-length encoding overlaps a parity bit or the
two-stop-bits bit, and no parity bit is the two-stop-bits bit. -/
def Consts.lcrh_fields_disjoint (k : Consts) : Prop :=
  (∀ w ∈ [k.LCRH_WLEN_5BITS, k.LCRH_WLEN_6BITS, k.LCRH_WLEN_7BITS, k.LCRH_WLEN_8BITS],
      w < 2 ^ 32 ∧ w &&& k.LCRH_PEN = 0 ∧ w &&& k.LCRH_EPS = 0 ∧ w &&& k.LCRH_SPS = 0 ∧
        w &&& k.LCRH_STP2 = 0) ∧
  (∀ p ∈ [k.LCRH_PEN, k.LCRH_EPS, k.LCRH_SPS], p < 2 ^ 32 ∧ p &&& k.LCRH_STP2 = 0)

instance (k : Consts) : Decidable k.lcrh_fields_disjoint := by
  unfold Consts.lcrh_fields_disjoint; infer_instance

/-- Decimal representation of `n` as character codes, most significant digit
first, without leading zeros (empty for 0). -/
def decimal (n : Nat) : List Nat := ((Nat.digits 10 n).map (fun d => 48 + d)).reverse

/-- The access log a successful `uart_configure` adds, with `n` polls of the
flag register. -/
def configureLog (k : Consts) (config : uart_config) (s : Uart) (n : Nat) : List Event :=
  [Event.read Reg.CR, Event.write Reg.CR (s.CR &&& bnot32 k.CR_UARTEN)]
    ++ List.replicate n (Event.read Reg.FR)
    ++ [Event.read Reg.LCRH, Event.write Reg.LCRH (s.LCRH &&& bnot32 k.LCRH_FEN),
        Event.write Reg.IBRD (baud_divisor config.baudrate).1,
        Event.write Reg.FBRD (baud_divisor config.baudrate).2,
        Event.write Reg.LCRH (lcrh_value k config),
        Event.read Reg.IMSC, Event.write Reg.IMSC (s.IMSC ||| k.IMSC_RXIM),
        Event.irq_register_isr k.UART0_INTERRUPT,
        Event.read Reg.CR,
        Event.write Reg.CR ((s.CR &&& bnot32 k.CR_UARTEN) ||| k.CR_UARTEN)]

/-- A peripheral holding a received byte `dr` with receive status `rsr`, the
receive FIFO not empty. -/
def received (dr rsr : Nat) : Uart := { idle with DR := dr, RSRECR := rsr }

/-- The accesses of a transmission: polls of the flag register and writes of
the data register. -/
def txOnly (t : List Event) : Prop :=
  ∀ e ∈ t, e = Event.read Reg.FR ∨ ∃ c, e = Event.write Reg.DR c

/-! ## Busy-wait loops -/

theorem tick_steady (s : Uart) : s.tick.steady = s.steady := by
  cases hf : s.frNext with
  | nil => simp [Uart.tick, hf]
  | cons v rest => simp [Uart.tick, Uart.steady, hf, List.getLast?_cons]

theorem rd_FR_steady (s : Uart) : (rd Reg.FR s).2.steady = s.steady := by
  rw [← tick_steady s]
  cases hf : s.frNext <;> simp [rd, Uart.tick, Uart.steady, hf]

theorem settles_drains (mask : Nat) (s : Uart) (h : settles mask s) : drains mask s := by
  refine ⟨s.steady, ?_, h⟩
  unfold Uart.steady
  cases hf : s.frNext.getLast? with
  | none => simp
  | some v => simpa using Or.inr (List.mem_of_getLast?_eq_some hf)

theorem pollWhileSet_frame (mask : Nat) :
    ∀ (fuel : Nat) (s s1 : Uart), pollWhileSet mask fuel s = .ok s1 →
      s1.steady = s.steady ∧
      ∃ n, 0 < n ∧ s1 =
        { s with
          FR := s1.FR, frNext := s1.frNext,
          trace := s.trace ++ List.replicate n (Event.read Reg.FR) } := by
  intro fuel
  induction fuel with
  | zero => intro s s1 h; simp [pollWhileSet] at h
  | succ fuel ih =>
    intro s s1 h
    simp only [pollWhileSet] at h
    split at h
    · obtain ⟨hst, n, hn, hs⟩ := ih _ _ h
      refine ⟨by rw [hst, rd_FR_steady], n + 1, Nat.succ_pos _, ?_⟩
      rw [hs]
      cases hf : s.frNext <;>
        simp [rd, Uart.tick, hf, List.replicate_succ, List.append_assoc]
    · injection h with h
      subst h
      refine ⟨rd_FR_steady s, 1, Nat.one_pos, ?_⟩
      cases hf : s.frNext <;> simp [rd, Uart.tick, hf]

theorem pollWhileSet_drains (mask : Nat) :
    ∀ (l : List Nat) (s : Uart), s.frNext = l → drains mask s →
      ∀ fuel, l.length < fuel → ∃ s1, pollWhileSet mask fuel s = .ok s1 := by
  intro l
  induction l with
  | nil =>
    intro s hl hd fuel hfuel
    obtain ⟨v, hv, hclear⟩ := hd
    rw [hl] at hv
    simp only [List.mem_singleton] at hv
    subst hv
    obtain ⟨f, rfl⟩ : ∃ f, fuel = f + 1 := ⟨fuel - 1, by simp at hfuel; omega⟩
    refine ⟨(rd Reg.FR s).2, ?_⟩
    simp [pollWhileSet, rd, Uart.get, hclear]
  | cons a l ih =>
    intro s hl hd fuel hfuel
    obtain ⟨f, rfl⟩ : ∃ f, fuel = f + 1 := ⟨fuel - 1, by simp at hfuel; omega⟩
    by_cases hc : s.FR &&& mask = 0
    · refine ⟨(rd Reg.FR s).2, ?_⟩
      simp [pollWhileSet, rd, Uart.get, hc]
    · have hd1 : drains mask (rd Reg.FR s).2 := by
        obtain ⟨v, hv, hclear⟩ := hd
        rw [hl] at hv
        rcases List.mem_cons.1 hv with h | h
        · subst h; exact absurd hclear hc
        · exact ⟨v, by simpa [rd, Uart.tick, hl] using h, hclear⟩
      have hl1 : (rd Reg.FR s).2.frNext = l := by simp [rd, Uart.tick, hl]
      obtain ⟨s1, hs1⟩ := ih _ hl1 hd1 f (by simp at hfuel; omega)
      refine ⟨s1, ?_⟩
      simp only [pollWhileSet]
      rw [if_pos (by simpa [rd, Uart.get] using hc)]
      exact hs1

/-- A wait on a flag that clears comes to an end; it reads the flag register
only, at least once, and leaves every other register as it was. -/
theorem busyWait_ok (mask : Nat) (s : Uart) (hd : drains mask s) :
    ∃ n fr nx, 0 < n ∧ nx.getLast?.getD fr = s.steady ∧ busyWait mask s =
      .ok { s with
            FR := fr, frNext := nx,
            trace := s.trace ++ List.replicate n (Event.read Reg.FR) } := by
  obtain ⟨s1, hs1⟩ := pollWhileSet_drains mask s.frNext s rfl hd (s.frNext.length + 1)
    (Nat.lt_succ_self _)
  obtain ⟨hst, n, hn, hs⟩ := pollWhileSet_frame mask _ s s1 hs1
  exact ⟨n, s1.FR, s1.frNext, hn, hst, by rw [busyWait, hs1, ← hs]⟩

/-- A wait on a flag that never clears does not come to an end. -/
theorem pollWhileSet_hang (mask : Nat) :
    ∀ (fuel : Nat) (s : Uart), ¬ drains mask s → pollWhileSet mask fuel s = .error Fault.hang := by
  intro fuel
  induction fuel with
  | zero => intro s _; rfl
  | succ fuel ih =>
    intro s hd
    have hc : s.FR &&& mask ≠ 0 := fun h => hd ⟨s.FR, List.mem_cons_self _ _, h⟩
    have hd1 : ¬ drains mask (rd Reg.FR s).2 := by
      rintro ⟨v, hv, hclear⟩
      apply hd
      refine ⟨v, ?_, hclear⟩
      cases hf : s.frNext with
      | nil =>
        simp [rd, Uart.tick, hf] at hv
        simp [hv]
      | cons a l =>
        simp [rd, Uart.tick, hf] at hv
        simp [hv]
    simp only [pollWhileSet]
    rw [if_pos (by simpa [rd, Uart.get] using hc)]
    exact ih _ hd1

/-! ## Rounding to binary64 -/

theorem binade_le (x : ℚ) (hx : 0 < x) : (2 : ℚ) ^ binade x ≤ x := by
  have hnum : 0 < x.num := Rat.num_pos.2 hx
  have hden : 0 < x.den := x.den_pos
  have ha : (2 : ℕ) ^ Nat.log2 x.num.natAbs ≤ x.num.natAbs :=
    Nat.log2_self_le (by omega)
  have hb : x.den < 2 ^ (Nat.log2 x.den + 1) := Nat.lt_log2_self
  unfold binade
  simp only
  split
  · -- 2^(a-b-1) ≤ x
    have hxe : x = (x.num.natAbs : ℚ) / (x.den : ℚ) := by
      have h2 : (x.num.natAbs : ℚ) = (x.num : ℚ) := by
        rw [← Int.cast_natCast, Int.natAbs_of_nonneg hnum.le]
      rw [h2]
      exact (Rat.num_div_den x).symm
    have e : ((Nat.log2 x.num.natAbs : ℤ) - (Nat.log2 x.den : ℤ) - 1)
        = (Nat.log2 x.num.natAbs : ℤ) - ((Nat.log2 x.den + 1 : ℕ) : ℤ) := by push_cast; ring
    rw [e, zpow_sub₀ (by norm_num : (2 : ℚ) ≠ 0), zpow_natCast, zpow_natCast]
    have ha' : (2 : ℚ) ^ Nat.log2 x.num.natAbs ≤ (x.num.natAbs : ℚ) := by exact_mod_cast ha
    have hb' : (x.den : ℚ) ≤ (2 : ℚ) ^ (Nat.log2 x.den + 1) := by exact_mod_cast hb.le
    have hden' : (0 : ℚ) < x.den := by exact_mod_cast hden
    conv_rhs => rw [hxe]
    exact div_le_div₀ (by positivity) ha' hden' hb'
  · rename_i h
    rw [abs_of_pos hx] at h
    exact not_lt.1 h

theorem lt_binade_succ (x : ℚ) (hx : 0 < x) : x < (2 : ℚ) ^ (binade x + 1) := by
  have hnum : 0 < x.num := Rat.num_pos.2 hx
  have hden : 0 < x.den := x.den_pos
  have ha : x.num.natAbs < 2 ^ (Nat.log2 x.num.natAbs + 1) := Nat.lt_log2_self
  have hb : (2 : ℕ) ^ Nat.log2 x.den ≤ x.den := Nat.log2_self_le (by omega)
  unfold binade
  simp only
  split
  · rename_i h
    rw [abs_of_pos hx] at h
    simpa using h
  · have hxe : x = (x.num.natAbs : ℚ) / (x.den : ℚ) := by
      have h2 : (x.num.natAbs : ℚ) = (x.num : ℚ) := by
        rw [← Int.cast_natCast, Int.natAbs_of_nonneg hnum.le]
      rw [h2]
      exact (Rat.num_div_den x).symm
    have e : ((Nat.log2 x.num.natAbs : ℤ) - (Nat.log2 x.den : ℤ) + 1)
        = ((Nat.log2 x.num.natAbs + 1 : ℕ) : ℤ) - (Nat.log2 x.den : ℤ) := by push_cast; ring
    rw [e, zpow_sub₀ (by norm_num : (2 : ℚ) ≠ 0), zpow_natCast, zpow_natCast]
    have ha' : (x.num.natAbs : ℚ) < (2 : ℚ) ^ (Nat.log2 x.num.natAbs + 1) := by exact_mod_cast ha
    have hb' : (2 : ℚ) ^ Nat.log2 x.den ≤ (x.den : ℚ) := by exact_mod_cast hb
    have hden' : (0 : ℚ) < x.den := by exact_mod_cast hden
    conv_lhs => rw [hxe]
    exact div_lt_div₀ ha' hb' (by positivity) (by positivity)

theorem roundNearestEven_err (y : ℚ) : |(roundNearestEven y : ℚ) - y| ≤ 1 / 2 := by
  have h0 := Int.fract_nonneg y
  have h1 := Int.fract_lt_one y
  have hf : y - (⌊y⌋ : ℚ) = Int.fract y := Int.self_sub_floor y
  unfold roundNearestEven
  simp only
  rw [hf]
  have hy : y = (⌊y⌋ : ℚ) + Int.fract y := (Int.floor_add_fract y).symm
  split
  · rw [abs_le]; constructor <;> linarith
  · split
    · rw [abs_le]; push_cast; constructor <;> linarith
    · split
      · rw [abs_le]; constructor <;> linarith
      · rw [abs_le]; push_cast; constructor <;> linarith

theorem roundNearestEven_intCast (z : ℤ) : roundNearestEven (z : ℚ) = z := by
  unfold roundNearestEven
  simp

theorem roundNearestEven_nonneg (y : ℚ) (hy : 0 ≤ y) : 0 ≤ roundNearestEven y := by
  have h : 0 ≤ ⌊y⌋ := Int.floor_nonneg.2 hy
  unfold roundNearestEven
  simp only
  split
  · exact h
  · split
    · omega
    · split <;> omega

theorem fl64_nonneg (x : ℚ) (hx : 0 ≤ x) : 0 ≤ fl64 x := by
  unfold fl64
  split
  · exact le_refl _
  · simp only
    have hq : (0 : ℚ) < (2 : ℚ) ^ (max (binade x) (-1022) - 52) := zpow_pos (by norm_num) _
    have := roundNearestEven_nonneg (x / (2 : ℚ) ^ (max (binade x) (-1022) - 52))
      (div_nonneg hx hq.le)
    have h2 : (0 : ℚ) ≤ (roundNearestEven (x / (2 : ℚ) ^ (max (binade x) (-1022) - 52)) : ℚ) := by
      exact_mod_cast this
    exact mul_nonneg h2 hq.le

/-- A non-negative multiple of `2^(-j)` below `2^(53-j)` is a binary64 value:
rounding returns it unchanged. -/
theorem fl64_exact (x : ℚ) (j : ℕ) (N : ℤ) (hj : j ≤ 1074) (h0 : 0 ≤ x)
    (hN : x * 2 ^ j = N) (hlt : x * 2 ^ j < 2 ^ 53) : fl64 x = x := by
  unfold fl64
  split
  · rename_i h; exact h.symm
  · rename_i hne
    have hx : 0 < x := lt_of_le_of_ne h0 (Ne.symm hne)
    simp only
    have two_ne : (2 : ℚ) ≠ 0 := by norm_num
    have hb := binade_le x hx
    have hbin : binade x < 53 - (j : ℤ) := by
      have h1 : x < (2 : ℚ) ^ (53 - (j : ℤ)) := by
        rw [zpow_sub₀ two_ne, zpow_natCast, lt_div_iff₀ (by positivity)]
        exact_mod_cast hlt
      exact (zpow_lt_zpow_iff_right₀ (by norm_num : (1 : ℚ) < 2)).1 (lt_of_le_of_lt hb h1)
    obtain ⟨d, hd⟩ : ∃ d : ℕ, (d : ℤ) = 52 - max (binade x) (-1022) - j :=
      ⟨(52 - max (binade x) (-1022) - j).toNat, by
        rw [Int.toNat_of_nonneg]
        have : max (binade x) (-1022) ≤ 52 - (j : ℤ) := max_le (by omega) (by omega)
        omega⟩
    have hq : (0 : ℚ) < (2 : ℚ) ^ (max (binade x) (-1022) - 52) := zpow_pos (by norm_num) _
    have hone : (2 : ℚ) ^ j * 2 ^ d * (2 : ℚ) ^ (max (binade x) (-1022) - 52) = 1 := by
      rw [← zpow_natCast, ← zpow_natCast (2 : ℚ) d, ← zpow_add₀ two_ne, ← zpow_add₀ two_ne]
      have : (j : ℤ) + d + (max (binade x) (-1022) - 52) = 0 := by omega
      rw [this, zpow_zero]
    have key : x / (2 : ℚ) ^ (max (binade x) (-1022) - 52) = ((N * 2 ^ d : ℤ) : ℚ) := by
      rw [div_eq_iff hq.ne']
      push_cast
      rw [← hN]
      calc x = x * ((2 : ℚ) ^ j * 2 ^ d * (2 : ℚ) ^ (max (binade x) (-1022) - 52)) := by
            rw [hone, mul_one]
        _ = _ := by ring
    rw [key, roundNearestEven_intCast, ← key]
    exact div_mul_cancel₀ x hq.ne'

/-- Below `2^14` a rounding moves a value by at most `2^(-40)`. -/
theorem fl64_err (x : ℚ) (h0 : 0 ≤ x) (hlt : x < 2 ^ 14) : |fl64 x - x| ≤ 1 / 2 ^ 40 := by
  unfold fl64
  split
  · rename_i h; subst h; simp
  · rename_i hne
    have hx : 0 < x := lt_of_le_of_ne h0 (Ne.symm hne)
    simp only
    have two_ne : (2 : ℚ) ≠ 0 := by norm_num
    have hb := binade_le x hx
    have hbin : binade x < 14 := by
      have h1 : x < (2 : ℚ) ^ (14 : ℤ) := by
        rw [show ((14 : ℤ)) = ((14 : ℕ) : ℤ) by norm_num, zpow_natCast]; exact hlt
      exact (zpow_lt_zpow_iff_right₀ (by norm_num : (1 : ℚ) < 2)).1 (lt_of_le_of_lt hb h1)
    have hE : max (binade x) (-1022) - 52 ≤ -39 := by
      have : max (binade x) (-1022) ≤ 13 := max_le (by omega) (by omega)
      omega
    have hq : (0 : ℚ) < (2 : ℚ) ^ (max (binade x) (-1022) - 52) := zpow_pos (by norm_num) _
    have hq39 : (2 : ℚ) ^ (max (binade x) (-1022) - 52) ≤ 1 / 2 ^ 39 := by
      have := zpow_le_zpow_right₀ (by norm_num : (1 : ℚ) ≤ 2) hE
      have e : (2 : ℚ) ^ (-39 : ℤ) = 1 / 2 ^ 39 := by
        rw [zpow_neg, show ((39 : ℤ)) = ((39 : ℕ) : ℤ) by norm_num, zpow_natCast, one_div]
      rwa [e] at this
    have hr := roundNearestEven_err (x / (2 : ℚ) ^ (max (binade x) (-1022) - 52))
    set q := (2 : ℚ) ^ (max (binade x) (-1022) - 52) with hqdef
    set r : ℚ := (roundNearestEven (x / q) : ℚ) with hrdef
    have e1 : r * q - x = (r - x / q) * q := by
      field_simp
    rw [e1, abs_mul, abs_of_pos hq]
    calc |r - x / q| * q ≤ (1 / 2) * (1 / 2 ^ 39) :=
          mul_le_mul hr hq39 hq.le (by norm_num)
      _ = 1 / 2 ^ 40 := by norm_num

/-- A rational with denominator dividing `d` that is not an integer keeps a
distance of `1/d` from the integers. -/
theorem fract_margin (z : ℚ) (d : ℕ) (hd : 0 < d) (N : ℤ) (hN : z * d = N)
    (hnon : ∀ n : ℤ, z ≠ n) :
    1 / (d : ℚ) ≤ Int.fract z ∧ Int.fract z ≤ 1 - 1 / (d : ℚ) := by
  have hdq : (0 : ℚ) < d := by exact_mod_cast hd
  have h0 := Int.fract_nonneg z
  have h1 := Int.fract_lt_one z
  have hM : Int.fract z * d = ((N - ⌊z⌋ * d : ℤ) : ℚ) := by
    push_cast
    rw [← hN, ← Int.self_sub_floor]
    ring
  have hM0 : (0 : ℤ) ≤ N - ⌊z⌋ * d := by
    have : (0 : ℚ) ≤ ((N - ⌊z⌋ * d : ℤ) : ℚ) := by rw [← hM]; positivity
    exact_mod_cast this
  have hMd : N - ⌊z⌋ * d < d := by
    have : ((N - ⌊z⌋ * d : ℤ) : ℚ) < ((d : ℤ) : ℚ) := by
      rw [← hM]
      calc Int.fract z * d < 1 * d := mul_lt_mul_of_pos_right h1 hdq
        _ = ((d : ℤ) : ℚ) := by simp
    exact_mod_cast this
  have hMne : N - ⌊z⌋ * d ≠ 0 := by
    intro h
    rw [h] at hM
    have hf : Int.fract z = 0 := by
      have hM' : Int.fract z * d = 0 := by simpa using hM
      rcases mul_eq_zero.1 hM' with h | h
      · exact h
      · exact absurd h hdq.ne'
    exact hnon ⌊z⌋ (by
      have := Int.floor_add_fract z
      rw [hf, add_zero] at this
      exact this.symm)
  have hfe : Int.fract z = ((N - ⌊z⌋ * d : ℤ) : ℚ) / d := by
    rw [← hM]; field_simp
  have hlo : (1 : ℚ) ≤ ((N - ⌊z⌋ * d : ℤ) : ℚ) := by
    have : (1 : ℤ) ≤ N - ⌊z⌋ * d := by omega
    exact_mod_cast this
  have hhi : ((N - ⌊z⌋ * d : ℤ) : ℚ) ≤ (d : ℚ) - 1 := by
    have : N - ⌊z⌋ * d ≤ (d : ℤ) - 1 := by omega
    exact_mod_cast this
  constructor
  · rw [hfe]
    exact div_le_div_of_nonneg_right hlo hdq.le
  · rw [hfe, show (1 : ℚ) - 1 / d = ((d : ℚ) - 1) / d by field_simp]
    exact div_le_div_of_nonneg_right hhi hdq.le

/-- A value closer to `y` than `y` is to the integers has the floor of `y`. -/
theorem floor_eq_of_near (s y ε : ℚ) (h1 : ε ≤ Int.fract y) (h2 : Int.fract y ≤ 1 - ε)
    (h : |s - y| < ε) : ⌊s⌋ = ⌊y⌋ := by
  have hy := Int.floor_add_fract y
  rw [abs_lt] at h
  rw [Int.floor_eq_iff]
  constructor <;> linarith [h.1, h.2]

/-! ## The baud-rate divisor -/

/-- The double-precision computation of lines 33-37 agrees with exact
arithmetic on the whole range of accepted baud rates. -/
theorem divisor_core (b : ℕ) (h1 : 110 ≤ b) (h2 : b ≤ 460800) :
    ⌊fl64 ((24000000 : ℚ) / (16 * b))⌋ = ⌊(24000000 : ℚ) / (16 * b)⌋ ∧
    ⌊fl64 (fl64 ((fl64 ((24000000 : ℚ) / (16 * b))
        - (⌊fl64 ((24000000 : ℚ) / (16 * b))⌋ : ℚ)) * 64) + 1 / 2)⌋
      = ⌊64 * Int.fract ((24000000 : ℚ) / (16 * b)) + 1 / 2⌋ := by
  have hb0 : (0 : ℚ) < b := by exact_mod_cast (show 0 < b by omega)
  have hb1 : (110 : ℚ) ≤ b := by exact_mod_cast h1
  have hb2 : (b : ℚ) ≤ 460800 := by exact_mod_cast h2
  set x : ℚ := (24000000 : ℚ) / (16 * b) with hx
  have hxb : x * b = ((1500000 : ℤ) : ℚ) := by
    rw [hx]; push_cast; field_simp; ring
  have hx0 : 0 ≤ x := by rw [hx]; positivity
  have hx14 : x < 2 ^ 14 := by
    rw [hx, div_lt_iff₀ (by positivity)]
    linarith
  have hfr0 := Int.fract_nonneg x
  have hfr1 := Int.fract_lt_one x
  have hfl : x - (⌊x⌋ : ℚ) = Int.fract x := Int.self_sub_floor x
  by_cases hdy : ∃ m : ℤ, x * 128 = m
  · -- the quotient is a multiple of 1/128: every operation is exact
    obtain ⟨m, hm⟩ := hdy
    have e1 : fl64 x = x :=
      fl64_exact x 7 m (by norm_num) hx0 (by rw [← hm]; norm_num) (by linarith)
    have hm2 : Int.fract x * 64 * 2 ^ 1 = ((m - 128 * ⌊x⌋ : ℤ) : ℚ) := by
      push_cast; rw [← hm, ← hfl]; ring
    have e2 : fl64 (Int.fract x * 64) = Int.fract x * 64 :=
      fl64_exact _ 1 _ (by norm_num) (by positivity) hm2 (by linarith)
    have hm3 : (Int.fract x * 64 + 1 / 2) * 2 ^ 1 = ((m - 128 * ⌊x⌋ + 1 : ℤ) : ℚ) := by
      push_cast; rw [← hm, ← hfl]; ring
    have e3 : fl64 (Int.fract x * 64 + 1 / 2) = Int.fract x * 64 + 1 / 2 :=
      fl64_exact _ 1 _ (by norm_num) (by positivity) hm3 (by linarith)
    rw [e1, hfl, e2, e3, mul_comm]
    exact ⟨rfl, rfl⟩
  · -- otherwise the exact values stay clear of the integers by more than the rounding errors
    have hdy' : ∀ m : ℤ, x * 128 ≠ m := fun m hm => hdy ⟨m, hm⟩
    have hnonint : ∀ n : ℤ, x ≠ n := by
      intro n hn
      exact hdy' (n * 128) (by rw [hn]; push_cast; ring)
    obtain ⟨hmx1, hmx2⟩ := fract_margin x b (by omega) 1500000 hxb hnonint
    have hinvb : (1 : ℚ) / 460800 ≤ 1 / b := one_div_le_one_div_of_le hb0 hb2
    have hd1 := fl64_err x hx0 hx14
    have hfloor : ⌊fl64 x⌋ = ⌊x⌋ :=
      floor_eq_of_near (fl64 x) x (1 / 460800) (by linarith) (by linarith)
        (lt_of_le_of_lt hd1 (by norm_num))
    rw [hfloor]
    refine ⟨rfl, ?_⟩
    rw [abs_le] at hd1
    -- the fractional part as the code has it
    set f : ℚ := fl64 x - (⌊x⌋ : ℚ) with hf
    have hfe : f = Int.fract x + (fl64 x - x) := by rw [hf, ← hfl]; ring
    have hf0 : 0 ≤ f := by rw [hfe]; linarith [hd1.1, (by norm_num : (1 : ℚ) / 2 ^ 40 < 1 / 460800)]
    have hf1 : f < 1 := by rw [hfe]; linarith [hd1.2, (by norm_num : (1 : ℚ) / 2 ^ 40 < 1 / 460800)]
    have hd2 := fl64_err (f * 64) (by positivity) (by linarith)
    have hg0 := fl64_nonneg (f * 64) (by positivity)
    rw [abs_le] at hd2
    have hd3 := fl64_err (fl64 (f * 64) + 1 / 2) (by positivity)
      (by linarith [hd2.2, (by norm_num : (1 : ℚ) / 2 ^ 40 < 1)])
    rw [abs_le] at hd3
    -- the exact value
    set y : ℚ := 64 * Int.fract x + 1 / 2 with hy
    have hyN : y * ((2 * b : ℕ) : ℚ) = ((128 * (1500000 - ⌊x⌋ * b) + b : ℤ) : ℚ) := by
      have : Int.fract x * b = 1500000 - (⌊x⌋ : ℚ) * b := by
        rw [← hfl, sub_mul, hxb]; norm_num
      rw [hy]; push_cast
      linear_combination 128 * this
    have hynon : ∀ n : ℤ, y ≠ n := by
      intro n hn
      apply hdy' (128 * ⌊x⌋ + 2 * n - 1)
      push_cast
      rw [← hn, hy, ← hfl]
      ring
    obtain ⟨hmy1, hmy2⟩ := fract_margin y (2 * b) (by omega) _ hyN hynon
    have hinv2b : (1 : ℚ) / 921600 ≤ 1 / ((2 * b : ℕ) : ℚ) := by
      apply one_div_le_one_div_of_le
      · push_cast; positivity
      · push_cast; linarith
    apply floor_eq_of_near _ y (1 / 921600) (by linarith) (by linarith)
    rw [abs_lt]
    have e : fl64 (fl64 (f * 64) + 1 / 2) - y
        = (fl64 (fl64 (f * 64) + 1 / 2) - (fl64 (f * 64) + 1 / 2))
          + (fl64 (f * 64) - f * 64) + 64 * (fl64 x - x) := by
      rw [hy, hfe]; ring
    rw [e]
    constructor <;> linarith [hd1.1, hd1.2, hd2.1, hd2.2, hd3.1, hd3.2,
      (by norm_num : (66 : ℚ) * (1 / 2 ^ 40) < 1 / 921600)]

theorem trunc_of_nonneg (x : ℚ) (h : 0 ≤ x) : trunc x = ⌊x⌋ := by
  simp [trunc, h]

/-- On the accepted baud rates the two divisor values are the ones of exact
rational arithmetic. -/
theorem baud_divisor_exact (b : ℕ) (h1 : 110 ≤ b) (h2 : b ≤ 460800) :
    ((baud_divisor b).1 : ℤ) = ⌊(24000000 : ℚ) / (16 * b)⌋ ∧
    ((baud_divisor b).2 : ℤ) = ⌊64 * Int.fract ((24000000 : ℚ) / (16 * b)) + 1 / 2⌋ := by
  obtain ⟨c1, c2⟩ := divisor_core b h1 h2
  have hb0 : (0 : ℚ) < b := by exact_mod_cast (show 0 < b by omega)
  have hb1 : (110 : ℚ) ≤ b := by exact_mod_cast h1
  have hmod : (16 * b) % 2 ^ 32 = 16 * b := Nat.mod_eq_of_lt (by omega)
  have hx0 : (0 : ℚ) ≤ (24000000 : ℚ) / (16 * b) := by positivity
  have hx14 : (24000000 : ℚ) / (16 * b) < 2 ^ 14 := by
    rw [div_lt_iff₀ (by positivity)]
    linarith
  have hq0 := fl64_nonneg _ hx0
  -- integer part
  have hfl0 : 0 ≤ ⌊(24000000 : ℚ) / (16 * b)⌋ := Int.floor_nonneg.2 hx0
  have hfl14 : ⌊(24000000 : ℚ) / (16 * b)⌋ < 2 ^ 14 := by
    have := Int.floor_le ((24000000 : ℚ) / (16 * b))
    have h : ((⌊(24000000 : ℚ) / (16 * b)⌋ : ℤ) : ℚ) < ((2 ^ 14 : ℤ) : ℚ) := by
      push_cast; linarith
    exact_mod_cast h
  -- fractional part
  have hy0 : (0 : ℚ) ≤ 64 * Int.fract ((24000000 : ℚ) / (16 * b)) + 1 / 2 := by
    have := Int.fract_nonneg ((24000000 : ℚ) / (16 * b)); positivity
  have hfy0 : 0 ≤ ⌊64 * Int.fract ((24000000 : ℚ) / (16 * b)) + 1 / 2⌋ := Int.floor_nonneg.2 hy0
  have hfy : ⌊64 * Int.fract ((24000000 : ℚ) / (16 * b)) + 1 / 2⌋ < 65 := by
    have h1 := Int.fract_lt_one ((24000000 : ℚ) / (16 * b))
    have := Int.floor_le (64 * Int.fract ((24000000 : ℚ) / (16 * b)) + 1 / 2)
    have h : ((⌊64 * Int.fract ((24000000 : ℚ) / (16 * b)) + 1 / 2⌋ : ℤ) : ℚ) < ((65 : ℤ) : ℚ) := by
      push_cast; linarith
    exact_mod_cast h
  have hcast : (((16 * b) % 2 ^ 32 : ℕ) : ℚ) = 16 * (b : ℚ) := by rw [hmod]; push_cast; ring
  have hq : fl64 ((refclock : ℚ) / (((16 * b) % 2 ^ 32 : ℕ) : ℚ))
      = fl64 ((24000000 : ℚ) / (16 * b)) := by
    rw [hcast]; simp [refclock]
  have ht : trunc (fl64 ((24000000 : ℚ) / (16 * b))) = ⌊(24000000 : ℚ) / (16 * b)⌋ := by
    rw [trunc_of_nonneg _ hq0, c1]
  simp only [baud_divisor, modf, toUInt, hq, ht]
  constructor
  · rw [trunc_of_nonneg _ (by exact_mod_cast hfl0), Int.floor_intCast]
    have : (⌊(24000000 : ℚ) / (16 * b)⌋).toNat % 2 ^ 16 = (⌊(24000000 : ℚ) / (16 * b)⌋).toNat := by
      apply Nat.mod_eq_of_lt; omega
    rw [this, Int.toNat_of_nonneg hfl0]
  · have c2' : ⌊fl64 (fl64 ((fl64 ((24000000 : ℚ) / (16 * b))
        - (⌊(24000000 : ℚ) / (16 * b)⌋ : ℚ)) * 64) + 1 / 2)⌋
        = ⌊64 * Int.fract ((24000000 : ℚ) / (16 * b)) + 1 / 2⌋ := by
      rw [← c1]; exact c2
    have hs0 : 0 ≤ fl64 (fl64 ((fl64 ((24000000 : ℚ) / (16 * b))
        - (⌊(24000000 : ℚ) / (16 * b)⌋ : ℚ)) * 64) + 1 / 2) := by
      apply fl64_nonneg
      have hf : 0 ≤ fl64 ((24000000 : ℚ) / (16 * b)) - (⌊(24000000 : ℚ) / (16 * b)⌋ : ℚ) := by
        rw [← c1]; linarith [Int.floor_le (fl64 ((24000000 : ℚ) / (16 * b)))]
      have := fl64_nonneg _ (mul_nonneg hf (by norm_num : (0 : ℚ) ≤ 64))
      linarith
    rw [trunc_of_nonneg _ hs0, c2']
    have : (⌊64 * Int.fract ((24000000 : ℚ) / (16 * b)) + 1 / 2⌋).toNat % 2 ^ 8
        = (⌊64 * Int.fract ((24000000 : ℚ) / (16 * b)) + 1 / 2⌋).toNat := by
      apply Nat.mod_eq_of_lt; omega
    rw [this, Int.toNat_of_nonneg hfy0]

/-! ## `uart_configure`: validation and the successful path -/

theorem uart_configure_ok (k : Consts) (config : uart_config) (s : Uart)
    (hv : valid_config config) (hd : drains k.FR_BUSY s) :
    ∃ n fr nx, 0 < n ∧ uart_configure k config s =
      .ok (uart_error.UART_OK,
        { s with
          FR := fr, frNext := nx,
          IBRD := (baud_divisor config.baudrate).1,
          FBRD := (baud_divisor config.baudrate).2,
          LCRH := lcrh_value k config,
          CR := (s.CR &&& bnot32 k.CR_UARTEN) ||| k.CR_UARTEN,
          IMSC := s.IMSC ||| k.IMSC_RXIM,
          trace := s.trace ++ configureLog k config s n }) := by
  obtain ⟨⟨h5, h8⟩, hstop, h110, hmax⟩ := hv
  have hd1 : drains k.FR_BUSY (rmw Reg.CR (fun v => v &&& bnot32 k.CR_UARTEN) s) := by
    simpa [drains, rmw, rd, wr, Uart.set] using hd
  obtain ⟨n, fr, nx, hn, -, hw⟩ := busyWait_ok _ _ hd1
  refine ⟨n, fr, nx, hn, ?_⟩
  have c1 : ¬ (config.data_bits < 5 ∨ config.data_bits > 8) := by omega
  have c2 : ¬ (config.stop_bits = 0 ∨ config.stop_bits > 2) := by omega
  have c3 : ¬ (config.baudrate < 110 ∨ config.baudrate > 460800) := by omega
  simp only [uart_configure, if_neg c1, if_neg c2, if_neg c3, hw]
  simp [rmw, rd, wr, Uart.set, Uart.get, irq_register_isr, configureLog, List.append_assoc]

theorem uart_configure_hang (k : Consts) (config : uart_config) (s : Uart)
    (hv : valid_config config) (hd : ¬ drains k.FR_BUSY s) :
    uart_configure k config s = .error Fault.hang := by
  obtain ⟨⟨h5, h8⟩, hstop, h110, hmax⟩ := hv
  have hd1 : ¬ drains k.FR_BUSY (rmw Reg.CR (fun v => v &&& bnot32 k.CR_UARTEN) s) := by
    simpa [drains, rmw, rd, wr, Uart.set] using hd
  have c1 : ¬ (config.data_bits < 5 ∨ config.data_bits > 8) := by omega
  have c2 : ¬ (config.stop_bits = 0 ∨ config.stop_bits > 2) := by omega
  have c3 : ¬ (config.baudrate < 110 ∨ config.baudrate > 460800) := by omega
  simp only [uart_configure, if_neg c1, if_neg c2, if_neg c3, busyWait,
    pollWhileSet_hang _ _ _ hd1]

/-- What `uart_configure` does with a configuration that fails validation. -/
theorem uart_configure_invalid (k : Consts) (config : uart_config) (s : Uart)
    (hv : ¬ valid_config config) :
    uart_configure k config s =
      .ok (if config.data_bits < 5 ∨ config.data_bits > 8 then
             uart_error.UART_INVALID_ARGUMENT_WORDSIZE
           else if config.stop_bits = 0 ∨ config.stop_bits > 2 then
             uart_error.UART_INVALID_ARGUMENT_STOP_BITS
           else uart_error.UART_INVALID_ARGUMENT_BAUDRATE, s) := by
  unfold uart_configure
  by_cases c1 : config.data_bits < 5 ∨ config.data_bits > 8
  · simp only [if_pos c1]
  · by_cases c2 : config.stop_bits = 0 ∨ config.stop_bits > 2
    · simp only [if_neg c1, if_pos c2]
    · by_cases c3 : config.baudrate < 110 ∨ config.baudrate > 460800
      · simp only [if_neg c1, if_neg c2, if_pos c3]
      · exact absurd (show valid_config config from
          ⟨⟨by omega, by omega⟩, by omega, by omega, by omega⟩) hv

/-- C1: `uart_configure` classifies a configuration in the order word size,
stop bits, baud rate: it returns the word-size error iff `data_bits` is outside
[5,8]; the stop-bits error iff `data_bits` is in [5,8] and `stop_bits` is neither
1 nor 2; the baud-rate error iff both are valid and `baudrate` is outside
[110, 460800]; and `UART_OK` iff all three fields are valid (the peripheral being
one whose busy flag clears, so that the call comes back). -/
theorem uart_configure_classifies (k : Consts) (config : uart_config) (s : Uart)
    (hd : drains k.FR_BUSY s) :
    (retcode (uart_configure k config s) = some uart_error.UART_INVALID_ARGUMENT_WORDSIZE ↔
        (config.data_bits < 5 ∨ 8 < config.data_bits)) ∧
    (retcode (uart_configure k config s) = some uart_error.UART_INVALID_ARGUMENT_STOP_BITS ↔
        ((5 ≤ config.data_bits ∧ config.data_bits ≤ 8) ∧
          ¬ (config.stop_bits = 1 ∨ config.stop_bits = 2))) ∧
    (retcode (uart_configure k config s) = some uart_error.UART_INVALID_ARGUMENT_BAUDRATE ↔
        ((5 ≤ config.data_bits ∧ config.data_bits ≤ 8) ∧
          (config.stop_bits = 1 ∨ config.stop_bits = 2) ∧
          (config.baudrate < 110 ∨ 460800 < config.baudrate))) ∧
    (retcode (uart_configure k config s) = some uart_error.UART_OK ↔
        ((5 ≤ config.data_bits ∧ config.data_bits ≤ 8) ∧
          (config.stop_bits = 1 ∨ config.stop_bits = 2) ∧
          (110 ≤ config.baudrate ∧ config.baudrate ≤ 460800))) := by
  by_cases hv : valid_config config
  · obtain ⟨n, fr, nx, -, h⟩ := uart_configure_ok k config s hv hd
    rw [h]
    obtain ⟨⟨h5, h8⟩, hstop, h110, hmax⟩ := hv
    refine ⟨?_, ?_, ?_, ?_⟩ <;> simp [retcode] <;> omega
  · rw [uart_configure_invalid k config s hv]
    have hv1 : ¬ ((5 ≤ config.data_bits ∧ config.data_bits ≤ 8) ∧
        (config.stop_bits = 1 ∨ config.stop_bits = 2) ∧
        (110 ≤ config.baudrate ∧ config.baudrate ≤ 460800)) := hv
    by_cases c1 : config.data_bits < 5 ∨ config.data_bits > 8
    · simp only [if_pos c1, retcode]
      refine ⟨?_, ?_, ?_, ?_⟩ <;> simp <;> omega
    · by_cases c2 : config.stop_bits = 0 ∨ config.stop_bits > 2
      · simp only [if_neg c1, if_pos c2, retcode]
        refine ⟨?_, ?_, ?_, ?_⟩ <;> simp <;> omega
      · simp only [if_neg c1, if_neg c2, retcode]
        refine ⟨?_, ?_, ?_, ?_⟩ <;> simp <;> omega

/-- C1, at a configuration with a bad word size, bad stop bits and a bad baud
rate at once, on an idle peripheral: the word-size error is the one returned. -/
theorem uart_configure_classifies_witness :
    drains pl011.FR_BUSY idle ∧
    (retcode (uart_configure pl011 ⟨9, 0, false, 5⟩ idle)
        = some uart_error.UART_INVALID_ARGUMENT_WORDSIZE ↔ ((9 : Nat) < 5 ∨ 8 < (9 : Nat))) :=
  ⟨by decide, (uart_configure_classifies pl011 ⟨9, 0, false, 5⟩ idle (by decide)).1⟩

/-- C2: a call of `uart_configure` that returns anything but `UART_OK` leaves the
peripheral exactly as it found it: no register holds a new value, the access log
has no new entry (no register was written or read, the interrupt handler was not
registered). -/
theorem uart_configure_error_no_effect (k : Consts) (config : uart_config) (s s1 : Uart)
    (e : uart_error) (hcall : uart_configure k config s = .ok (e, s1))
    (herr : e ≠ uart_error.UART_OK) :
    s1 = s ∧ s1.trace = s.trace ∧
      hasWrite (s1.trace.drop s.trace.length) = false ∧
      Event.irq_register_isr k.UART0_INTERRUPT ∉ s1.trace.drop s.trace.length := by
  have hs : s1 = s := by
    by_cases hv : valid_config config
    · by_cases hd : drains k.FR_BUSY s
      · obtain ⟨n, fr, nx, -, h⟩ := uart_configure_ok k config s hv hd
        rw [h] at hcall
        injection hcall with hcall
        injection hcall with h1 h2
        exact absurd h1.symm herr
      · rw [uart_configure_hang k config s hv hd] at hcall
        cases hcall
    · rw [uart_configure_invalid k config s hv] at hcall
      injection hcall with hcall
      injection hcall with h1 h2
      exact h2.symm
  subst hs
  simp [hasWrite]

/-- C2, at a configuration with an invalid stop-bit count. -/
theorem uart_configure_error_no_effect_witness :
    uart_configure pl011 ⟨8, 3, true, 9600⟩ idle
        = .ok (uart_error.UART_INVALID_ARGUMENT_STOP_BITS, idle) ∧
      (idle = idle ∧ idle.trace = idle.trace ∧
        hasWrite (idle.trace.drop idle.trace.length) = false ∧
        Event.irq_register_isr pl011.UART0_INTERRUPT ∉ idle.trace.drop idle.trace.length) :=
  ⟨by decide, uart_configure_error_no_effect pl011 ⟨8, 3, true, 9600⟩ idle idle
    uart_error.UART_INVALID_ARGUMENT_STOP_BITS (by decide) (by decide)⟩

/-! ## Bit masks and the access log -/

theorem and_bnot32_of_disjoint (x m : Nat) (hx : x < 2 ^ 32) (hd : x &&& m = 0) :
    x &&& bnot32 m = x := by
  apply Nat.eq_of_testBit_eq
  intro i
  have h1 : (x &&& m).testBit i = false := by rw [hd]; simp
  rw [Nat.testBit_and] at h1
  simp only [bnot32, Nat.testBit_and, Nat.testBit_xor, Nat.testBit_two_pow_sub_one,
    Nat.testBit_mod_two_pow]
  by_cases hi : i < 32
  · simp [hi]
    cases hxi : x.testBit i <;> simp_all
  · have : x.testBit i = false := by
      apply Nat.testBit_lt_two_pow
      exact lt_of_lt_of_le hx (Nat.pow_le_pow_right (by norm_num) (by omega))
    simp [this]

theorem or_and_eq_zero (a b m : Nat) (ha : a &&& m = 0) (hb : b &&& m = 0) :
    (a ||| b) &&& m = 0 := by
  apply Nat.eq_of_testBit_eq
  intro i
  have h1 : (a &&& m).testBit i = false := by rw [ha]; simp
  have h2 : (b &&& m).testBit i = false := by rw [hb]; simp
  rw [Nat.testBit_and] at h1 h2
  simp only [Nat.testBit_and, Nat.testBit_or, Nat.zero_testBit]
  cases hm : m.testBit i <;> simp_all

/-- Lines 39-77 compute the word-length encoding, with the three parity bits iff
parity is on, the two-stop-bits bit iff two stop bits are asked for, and the
FIFO-enable bit. -/
theorem lcrh_value_eq (k : Consts) (config : uart_config) (hk : k.lcrh_fields_disjoint)
    (hv : valid_config config) :
    lcrh_value k config =
      wlen_encoding k config.data_bits
        ||| (if config.parity then k.LCRH_PEN ||| k.LCRH_EPS ||| k.LCRH_SPS else 0)
        ||| (if config.stop_bits = 2 then k.LCRH_STP2 else 0)
        ||| k.LCRH_FEN := by
  obtain ⟨⟨h5, h8⟩, hstop, -⟩ := hv
  obtain ⟨hw, hp⟩ := hk
  have hpen := hp k.LCRH_PEN (by simp)
  have heps := hp k.LCRH_EPS (by simp)
  have hsps := hp k.LCRH_SPS (by simp)
  -- the word-length case taken
  have hcase : ∃ w, w ∈ [k.LCRH_WLEN_5BITS, k.LCRH_WLEN_6BITS, k.LCRH_WLEN_7BITS,
      k.LCRH_WLEN_8BITS] ∧ wlen_encoding k config.data_bits = w ∧
      lcrh_value k config =
        (if config.stop_bits = 1 then
          (if config.parity then ((w ||| k.LCRH_PEN) ||| k.LCRH_EPS) ||| k.LCRH_SPS
            else ((w &&& bnot32 k.LCRH_PEN) &&& bnot32 k.LCRH_EPS) &&& bnot32 k.LCRH_SPS)
            &&& bnot32 k.LCRH_STP2
         else
          (if config.parity then ((w ||| k.LCRH_PEN) ||| k.LCRH_EPS) ||| k.LCRH_SPS
            else ((w &&& bnot32 k.LCRH_PEN) &&& bnot32 k.LCRH_EPS) &&& bnot32 k.LCRH_SPS)
            ||| k.LCRH_STP2) ||| k.LCRH_FEN := by
    have hs2 : config.stop_bits ≠ 1 → config.stop_bits = 2 := by omega
    have h : config.data_bits = 5 ∨ config.data_bits = 6 ∨ config.data_bits = 7 ∨
        config.data_bits = 8 := by omega
    rcases h with h | h | h | h
    · refine ⟨k.LCRH_WLEN_5BITS, by simp, by simp [wlen_encoding, h], ?_⟩
      by_cases h1 : config.stop_bits = 1
      · simp [lcrh_value, h, h1]
      · simp [lcrh_value, h, h1, hs2 h1]
    · refine ⟨k.LCRH_WLEN_6BITS, by simp, by simp [wlen_encoding, h], ?_⟩
      by_cases h1 : config.stop_bits = 1
      · simp [lcrh_value, h, h1]
      · simp [lcrh_value, h, h1, hs2 h1]
    · refine ⟨k.LCRH_WLEN_7BITS, by simp, by simp [wlen_encoding, h], ?_⟩
      by_cases h1 : config.stop_bits = 1
      · simp [lcrh_value, h, h1]
      · simp [lcrh_value, h, h1, hs2 h1]
    · refine ⟨k.LCRH_WLEN_8BITS, by simp, by simp [wlen_encoding, h], ?_⟩
      by_cases h1 : config.stop_bits = 1
      · simp [lcrh_value, h, h1]
      · simp [lcrh_value, h, h1, hs2 h1]
  obtain ⟨w, hmem, hwl, hval⟩ := hcase
  obtain ⟨hw32, hwpen, hweps, hwsps, hwstp⟩ := hw w hmem
  rw [hval, hwl]
  have hoff : ((w &&& bnot32 k.LCRH_PEN) &&& bnot32 k.LCRH_EPS) &&& bnot32 k.LCRH_SPS = w := by
    rw [and_bnot32_of_disjoint w _ hw32 hwpen, and_bnot32_of_disjoint w _ hw32 hweps,
      and_bnot32_of_disjoint w _ hw32 hwsps]
  have hon32 : ((w ||| k.LCRH_PEN) ||| k.LCRH_EPS) ||| k.LCRH_SPS < 2 ^ 32 :=
    Nat.or_lt_two_pow (Nat.or_lt_two_pow (Nat.or_lt_two_pow hw32 hpen.1) heps.1) hsps.1
  have hondis : (((w ||| k.LCRH_PEN) ||| k.LCRH_EPS) ||| k.LCRH_SPS) &&& k.LCRH_STP2 = 0 :=
    or_and_eq_zero _ _ _ (or_and_eq_zero _ _ _ (or_and_eq_zero _ _ _ hwstp hpen.2) heps.2) hsps.2
  rcases hstop with h1 | h2
  · have h12 : ¬ config.stop_bits = 2 := by omega
    cases hpar : config.parity
    · simp [h1, hoff, and_bnot32_of_disjoint w _ hw32 hwstp]
    · have hx := and_bnot32_of_disjoint _ _ hon32 hondis
      simp only [h1, if_true, hx]
      simp [Nat.or_assoc]
  · have h21 : ¬ config.stop_bits = 1 := by omega
    cases hpar : config.parity
    · simp [h2, hoff]
    · simp [h2, Nat.or_assoc]

theorem writesTo_append (r : Reg) (l1 l2 : List Event) :
    writesTo r (l1 ++ l2) = writesTo r l1 ++ writesTo r l2 := by
  induction l1 with
  | nil => rfl
  | cons e l ih =>
    cases e with
    | read r1 => simpa [writesTo] using ih
    | write r1 v => by_cases h : r1 = r <;> simp [writesTo, h, ih]
    | irq_register_isr n => simpa [writesTo] using ih

theorem writesTo_replicate_read (r r1 : Reg) (n : Nat) :
    writesTo r (List.replicate n (Event.read r1)) = [] := by
  induction n with
  | zero => rfl
  | succ n ih => simpa [List.replicate_succ, writesTo] using ih

/-! ## The divisor registers -/

/-- C3: on every valid configuration, with the reference clock of 24,000,000 Hz,
`uart_configure` writes to the integer-divisor register the floor of
`refclock / (16 * baudrate)` and to the fractional-divisor register the floor of
`64 * frac(refclock / (16 * baudrate)) + 1/2`, both taken in exact rational
arithmetic; each register is written once; at 9600 baud the pair is (156, 16). -/
theorem uart_configure_divisors (k : Consts) (config : uart_config) (s : Uart)
    (hv : valid_config config) (hd : drains k.FR_BUSY s) :
    refclock = 24000000 ∧
    ∃ s1, uart_configure k config s = .ok (uart_error.UART_OK, s1) ∧
      (s1.IBRD : ℤ) = ⌊(refclock : ℚ) / (16 * config.baudrate)⌋ ∧
      (s1.FBRD : ℤ) = ⌊64 * Int.fract ((refclock : ℚ) / (16 * config.baudrate)) + 1 / 2⌋ ∧
      writesTo Reg.IBRD (s1.trace.drop s.trace.length) = [s1.IBRD] ∧
      writesTo Reg.FBRD (s1.trace.drop s.trace.length) = [s1.FBRD] ∧
      (config.baudrate = 9600 → s1.IBRD = 156 ∧ s1.FBRD = 16) := by
  obtain ⟨n, fr, nx, -, h⟩ := uart_configure_ok k config s hv hd
  obtain ⟨e1, e2⟩ := baud_divisor_exact config.baudrate hv.2.2.1 hv.2.2.2
  have hclk : (refclock : ℚ) = 24000000 := by simp [refclock]
  refine ⟨rfl, _, h, ?_, ?_, ?_, ?_, ?_⟩
  · rw [hclk]; exact e1
  · rw [hclk]; exact e2
  · simp [configureLog, writesTo_append, writesTo_replicate_read, writesTo]
  · simp [configureLog, writesTo_append, writesTo_replicate_read, writesTo]
  · intro hb
    rw [hb] at e1 e2
    have f1 : ⌊(24000000 : ℚ) / (16 * (9600 : ℕ))⌋ = 156 := by
      rw [Int.floor_eq_iff]; norm_num
    have f2 : ⌊64 * Int.fract ((24000000 : ℚ) / (16 * (9600 : ℕ))) + 1 / 2⌋ = 16 := by
      rw [Int.fract, f1, Int.floor_eq_iff]; norm_num
    rw [f1] at e1
    rw [f2] at e2
    constructor
    · show (baud_divisor config.baudrate).1 = 156
      rw [hb]; exact_mod_cast e1
    · show (baud_divisor config.baudrate).2 = 16
      rw [hb]; exact_mod_cast e2

/-- C3, at 8N1 and 9600 baud on an idle peripheral. -/
theorem uart_configure_divisors_witness :
    valid_config ⟨8, 1, false, 9600⟩ ∧ drains pl011.FR_BUSY idle ∧
    ∃ s1, uart_configure pl011 ⟨8, 1, false, 9600⟩ idle = .ok (uart_error.UART_OK, s1) ∧
      s1.IBRD = 156 ∧ s1.FBRD = 16 := by
  obtain ⟨-, s1, h, -, -, -, -, h9600⟩ :=
    uart_configure_divisors pl011 ⟨8, 1, false, 9600⟩ idle (by decide) (by decide)
  exact ⟨by decide, by decide, s1, h, h9600 rfl⟩

/-- C4, at the failing input: 307 baud is an accepted rate; the quotient
24000000 / (16 * 307) has fractional part 305/307, which scaled by 64 rounds
up to 64, and 64 is the value written to the fractional-divisor register: it
does not fit a field of 6 bits. -/
theorem uart_configure_fbrd_64 :
    valid_config ⟨8, 1, false, 307⟩ ∧
    ∃ s1, uart_configure pl011 ⟨8, 1, false, 307⟩ idle = .ok (uart_error.UART_OK, s1) ∧
      s1.IBRD = 4885 ∧ s1.FBRD = 64 ∧ writesTo Reg.FBRD s1.trace = [64] ∧ ¬ s1.FBRD < 2 ^ 6 := by
  obtain ⟨n, fr, nx, -, h⟩ :=
    uart_configure_ok pl011 ⟨8, 1, false, 307⟩ idle (by decide) (by decide)
  obtain ⟨e1, e2⟩ := baud_divisor_exact 307 (by norm_num) (by norm_num)
  have f1 : ⌊(24000000 : ℚ) / (16 * (307 : ℕ))⌋ = 4885 := by
    rw [Int.floor_eq_iff]; norm_num
  have f2 : ⌊64 * Int.fract ((24000000 : ℚ) / (16 * (307 : ℕ))) + 1 / 2⌋ = 64 := by
    rw [Int.fract, f1, Int.floor_eq_iff]; norm_num
  rw [f1] at e1
  rw [f2] at e2
  have g1 : (baud_divisor 307).1 = 4885 := by exact_mod_cast e1
  have g2 : (baud_divisor 307).2 = 64 := by exact_mod_cast e2
  refine ⟨by decide, _, h, g1, g2, ?_, ?_⟩
  · simp [configureLog, writesTo_append, writesTo_replicate_read, writesTo, idle, g2]
  · show ¬ (baud_divisor 307).2 < 2 ^ 6
    rw [g2]; norm_num

/-! ## The line-control register -/

/-- C5: on every valid configuration, whatever the line-control register held
before, the value `uart_configure` finally writes to the line-control register
(and which the register holds afterwards) is the word-length encoding selected by
`data_bits`, OR-ed with `LCRH_PEN`, `LCRH_EPS` and `LCRH_SPS` when parity is on and
none of them when it is off, OR-ed with `LCRH_STP2` iff `stop_bits` is 2, OR-ed
with `LCRH_FEN`.  The bit masks of the register fields are taken to lie on
different bits, as the register map has them. -/
theorem uart_configure_lcrh (k : Consts) (config : uart_config) (s : Uart)
    (hk : k.lcrh_fields_disjoint) (hv : valid_config config) (hd : drains k.FR_BUSY s) :
    ∃ s1, uart_configure k config s = .ok (uart_error.UART_OK, s1) ∧
      s1.LCRH =
        wlen_encoding k config.data_bits
          ||| (if config.parity then k.LCRH_PEN ||| k.LCRH_EPS ||| k.LCRH_SPS else 0)
          ||| (if config.stop_bits = 2 then k.LCRH_STP2 else 0)
          ||| k.LCRH_FEN ∧
      (writesTo Reg.LCRH (s1.trace.drop s.trace.length)).getLast? = some s1.LCRH := by
  obtain ⟨n, fr, nx, -, h⟩ := uart_configure_ok k config s hv hd
  refine ⟨_, h, ?_, ?_⟩
  · exact lcrh_value_eq k config hk hv
  · simp [configureLog, writesTo_append, writesTo_replicate_read, writesTo]

/-- C5, at 8 data bits, even parity, 2 stop bits on the PL011 register map:
the line-control register ends up holding 0xFE. -/
theorem uart_configure_lcrh_witness :
    pl011.lcrh_fields_disjoint ∧ valid_config ⟨8, 2, true, 115200⟩ ∧
      drains pl011.FR_BUSY { idle with LCRH := 0xFFFF } ∧
    ∃ s1, uart_configure pl011 ⟨8, 2, true, 115200⟩ { idle with LCRH := 0xFFFF }
        = .ok (uart_error.UART_OK, s1) ∧
      s1.LCRH =
        wlen_encoding pl011 8
          ||| (if true then pl011.LCRH_PEN ||| pl011.LCRH_EPS ||| pl011.LCRH_SPS else 0)
          ||| (if 2 = 2 then pl011.LCRH_STP2 else 0)
          ||| pl011.LCRH_FEN ∧
      (writesTo Reg.LCRH (s1.trace.drop ({ idle with LCRH := 0xFFFF } : Uart).trace.length)).getLast?
        = some s1.LCRH :=
  ⟨by decide, by decide, by decide,
    uart_configure_lcrh pl011 ⟨8, 2, true, 115200⟩ { idle with LCRH := 0xFFFF }
      (by decide) (by decide) (by decide)⟩

/-! ## `uart_getchar` -/

/-- The error path of `uart_getchar`, step by step. -/
theorem uart_getchar_error (k : Consts) (c : Nat) (s : Uart)
    (hrx : s.FR &&& k.FR_RXFE = 0) (herr : s.RSRECR &&& k.RSRECR_ERR_MASK ≠ 0) :
    uart_getchar k c s =
      (uart_error.UART_RECEIVE_ERROR, (s.DR &&& k.DR_DATA_MASK) % 2 ^ 8,
        { s with
          FR := s.tick.FR, frNext := s.tick.frNext,
          RSRECR := 0,
          trace := s.trace ++ [Event.read Reg.FR, Event.read Reg.DR, Event.read Reg.RSRECR,
            Event.read Reg.RSRECR, Event.write Reg.RSRECR (s.RSRECR &&& k.RSRECR_ERR_MASK)] }) := by
  cases hf : s.frNext <;>
    simp [uart_getchar, rd, wr, rmw, Uart.get, Uart.set, Uart.tick, hf, hrx, herr]

/-- The path of `uart_getchar` on which a clean character is delivered. -/
theorem uart_getchar_clean (k : Consts) (c : Nat) (s : Uart)
    (hrx : s.FR &&& k.FR_RXFE = 0) (herr : s.RSRECR &&& k.RSRECR_ERR_MASK = 0) :
    uart_getchar k c s =
      (uart_error.UART_OK, (s.DR &&& k.DR_DATA_MASK) % 2 ^ 8,
        { s with
          FR := s.tick.FR, frNext := s.tick.frNext,
          trace := s.trace ++ [Event.read Reg.FR, Event.read Reg.DR, Event.read Reg.RSRECR] }) := by
  cases hf : s.frNext <;>
    simp [uart_getchar, rd, Uart.get, Uart.tick, hf, hrx, herr]

/-- The path of `uart_getchar` taken when the receive FIFO is empty. -/
theorem uart_getchar_empty (k : Consts) (c : Nat) (s : Uart)
    (hrx : s.FR &&& k.FR_RXFE ≠ 0) :
    uart_getchar k c s =
      (uart_error.UART_NO_DATA, c,
        { s with
          FR := s.tick.FR, frNext := s.tick.frNext,
          trace := s.trace ++ [Event.read Reg.FR] }) := by
  cases hf : s.frNext <;>
    simp [uart_getchar, rd, Uart.get, Uart.tick, hf, hrx]

/-- C6: when a character has arrived with an error flag set (receive FIFO not
empty, some bit of `RSRECR_ERR_MASK` set in the receive-status register),
`uart_getchar` returns the receive error and writes once to the
receive-status/error-clear register, which clears the error flags: no bit of
`RSRECR_ERR_MASK` is set afterwards, and a second call does not report a receive
error (it returns `UART_NO_DATA` or `UART_OK`). -/
theorem uart_getchar_error_clears (k : Consts) (c : Nat) (s : Uart)
    (hrx : s.FR &&& k.FR_RXFE = 0) (herr : s.RSRECR &&& k.RSRECR_ERR_MASK ≠ 0) :
    (uart_getchar k c s).1 = uart_error.UART_RECEIVE_ERROR ∧
    (uart_getchar k c s).2.2.RSRECR &&& k.RSRECR_ERR_MASK = 0 ∧
    writesTo Reg.RSRECR ((uart_getchar k c s).2.2.trace.drop s.trace.length)
      = [s.RSRECR &&& k.RSRECR_ERR_MASK] ∧
    ∀ c1, (uart_getchar k c1 (uart_getchar k c s).2.2).1 ≠ uart_error.UART_RECEIVE_ERROR ∧
      ((uart_getchar k c1 (uart_getchar k c s).2.2).1 = uart_error.UART_NO_DATA ∨
        (uart_getchar k c1 (uart_getchar k c s).2.2).1 = uart_error.UART_OK) := by
  have key : ∀ p : Uart, p.RSRECR = 0 → ∀ c1,
      (uart_getchar k c1 p).1 ≠ uart_error.UART_RECEIVE_ERROR ∧
      ((uart_getchar k c1 p).1 = uart_error.UART_NO_DATA ∨
        (uart_getchar k c1 p).1 = uart_error.UART_OK) := by
    intro p hp c1
    by_cases h2 : p.FR &&& k.FR_RXFE = 0
    · rw [uart_getchar_clean k c1 p h2 (by simp [hp])]
      exact ⟨by simp, Or.inr rfl⟩
    · rw [uart_getchar_empty k c1 p h2]
      exact ⟨by simp, Or.inl rfl⟩
  rw [uart_getchar_error k c s hrx herr]
  exact ⟨rfl, by simp, by simp [writesTo], key _ rfl⟩

/-- C6, at a byte 0x41 arriving with the framing-error flag set (receive
status 1): the first call reports the error and leaves the status clear, the
second call delivers without error. -/
theorem uart_getchar_error_clears_witness :
    (received 0x41 1).FR &&& pl011.FR_RXFE = 0 ∧
    (received 0x41 1).RSRECR &&& pl011.RSRECR_ERR_MASK ≠ 0 ∧
    (uart_getchar pl011 0 (received 0x41 1)).1 = uart_error.UART_RECEIVE_ERROR ∧
    (uart_getchar pl011 0 (received 0x41 1)).2.2.RSRECR &&& pl011.RSRECR_ERR_MASK = 0 ∧
    (uart_getchar pl011 0 (uart_getchar pl011 0 (received 0x41 1)).2.2).1
      ≠ uart_error.UART_RECEIVE_ERROR :=
  ⟨by decide, by decide,
    (uart_getchar_error_clears pl011 0 (received 0x41 1) (by decide) (by decide)).1,
    (uart_getchar_error_clears pl011 0 (received 0x41 1) (by decide) (by decide)).2.1,
    ((uart_getchar_error_clears pl011 0 (received 0x41 1) (by decide) (by decide)).2.2.2 0).1⟩

/-- C7 as stated fails: on a receive error the caller's character does not keep
its value (here 0 before the call, 0x41 after it). -/
theorem uart_getchar_error_overwrites_char :
    ¬ ∀ (k : Consts) (c : Nat) (s : Uart),
        (uart_getchar k c s).1 = uart_error.UART_RECEIVE_ERROR → (uart_getchar k c s).2.1 = c := by
  intro h
  exact absurd (h pl011 0 (received 0x41 1) (by decide)) (by decide)

/-- C7, amended: when `uart_getchar` returns the receive error, the caller's
character holds the byte read from the data register (the data register value
masked with `DR_DATA_MASK`, converted to `char`), whatever it held before. -/
theorem uart_getchar_error_char (k : Consts) (c : Nat) (s : Uart)
    (h : (uart_getchar k c s).1 = uart_error.UART_RECEIVE_ERROR) :
    (uart_getchar k c s).2.1 = (s.DR &&& k.DR_DATA_MASK) % 2 ^ 8 := by
  by_cases hrx : s.FR &&& k.FR_RXFE = 0
  · by_cases herr : s.RSRECR &&& k.RSRECR_ERR_MASK = 0
    · rw [uart_getchar_clean k c s hrx herr]
    · rw [uart_getchar_error k c s hrx herr]
  · rw [uart_getchar_empty k c s hrx] at h
    cases h

/-- C7 amended, at a byte 0x41 arriving with a framing error. -/
theorem uart_getchar_error_char_witness :
    (uart_getchar pl011 0 (received 0x41 1)).1 = uart_error.UART_RECEIVE_ERROR ∧
    (uart_getchar pl011 0 (received 0x41 1)).2.1 = 0x41 :=
  ⟨by decide, uart_getchar_error_char pl011 0 (received 0x41 1) (by decide)⟩

/-- C8: with the receive-FIFO-empty flag set, `uart_getchar` returns
`UART_NO_DATA` after a single read of the flag register: the data register is
not read, no register is written, every register other than the flag register
holds what it held, and the caller's character is unchanged. -/
theorem uart_getchar_no_data (k : Consts) (c : Nat) (s : Uart)
    (hrx : s.FR &&& k.FR_RXFE ≠ 0) :
    (uart_getchar k c s).1 = uart_error.UART_NO_DATA ∧
    (uart_getchar k c s).2.1 = c ∧
    (uart_getchar k c s).2.2.trace = s.trace ++ [Event.read Reg.FR] ∧
    Event.read Reg.DR ∉ (uart_getchar k c s).2.2.trace.drop s.trace.length ∧
    hasWrite ((uart_getchar k c s).2.2.trace.drop s.trace.length) = false ∧
    (uart_getchar k c s).2.2 =
      { s with
        FR := (uart_getchar k c s).2.2.FR, frNext := (uart_getchar k c s).2.2.frNext,
        trace := (uart_getchar k c s).2.2.trace } := by
  rw [uart_getchar_empty k c s hrx]
  simp [hasWrite]

/-- C8, with nothing received (flag register 0x10) and the caller's character 7. -/
theorem uart_getchar_no_data_witness :
    ({ idle with FR := 0x10 } : Uart).FR &&& pl011.FR_RXFE ≠ 0 ∧
    (uart_getchar pl011 7 { idle with FR := 0x10 }).1 = uart_error.UART_NO_DATA ∧
    (uart_getchar pl011 7 { idle with FR := 0x10 }).2.1 = 7 :=
  ⟨by decide, (uart_getchar_no_data pl011 7 { idle with FR := 0x10 } (by decide)).1,
    (uart_getchar_no_data pl011 7 { idle with FR := 0x10 } (by decide)).2.1⟩

/-- C9: `uart_getchar` returns `UART_OK` exactly in the states in which the
receive FIFO is not empty and no bit of `RSRECR_ERR_MASK` is set in the
receive-status register; it then stores in the caller's character the data
register value masked with `DR_DATA_MASK` (with the mask 0xFF of the register
map: the low byte of the data register) and writes no register. -/
theorem uart_getchar_ok (k : Consts) (c : Nat) (s : Uart) :
    ((uart_getchar k c s).1 = uart_error.UART_OK ↔
      (s.FR &&& k.FR_RXFE = 0 ∧ s.RSRECR &&& k.RSRECR_ERR_MASK = 0)) ∧
    ((uart_getchar k c s).1 = uart_error.UART_OK →
      (uart_getchar k c s).2.1 = (s.DR &&& k.DR_DATA_MASK) % 2 ^ 8 ∧
      (k.DR_DATA_MASK = 0xFF → (uart_getchar k c s).2.1 = s.DR &&& k.DR_DATA_MASK ∧
        (uart_getchar k c s).2.1 = s.DR % 256) ∧
      hasWrite ((uart_getchar k c s).2.2.trace.drop s.trace.length) = false ∧
      (uart_getchar k c s).2.2 =
        { s with
          FR := (uart_getchar k c s).2.2.FR, frNext := (uart_getchar k c s).2.2.frNext,
          trace := (uart_getchar k c s).2.2.trace }) := by
  have hbyte : ∀ x : Nat, (x &&& 255) % 256 = x &&& 255 ∧ (x &&& 255) % 256 = x % 256 := by
    intro x
    have h := Nat.and_pow_two_sub_one_eq_mod x 8
    norm_num at h
    rw [h]
    simp
  by_cases hrx : s.FR &&& k.FR_RXFE = 0
  · by_cases herr : s.RSRECR &&& k.RSRECR_ERR_MASK = 0
    · rw [uart_getchar_clean k c s hrx herr]
      refine ⟨by simp [hrx, herr], fun _ => ⟨rfl, ?_, by simp [hasWrite], rfl⟩⟩
      intro hm
      simp only [hm]
      exact hbyte s.DR
    · rw [uart_getchar_error k c s hrx herr]
      refine ⟨by simp [herr], fun h => by cases h⟩
  · rw [uart_getchar_empty k c s hrx]
    refine ⟨by simp [hrx], fun h => by cases h⟩

/-! ## Transmission -/

/-- With a transmit-FIFO-full flag that ends up clear, `uart_putchar` comes back,
having polled the flag register and written the character to the data register. -/
theorem uart_putchar_ok (k : Consts) (c : Nat) (s : Uart) (h : settles k.FR_TXFF s) :
    ∃ n fr nx, 0 < n ∧ nx.getLast?.getD fr = s.steady ∧ uart_putchar k c s =
      .ok { s with
            FR := fr, frNext := nx, DR := c,
            trace := s.trace ++ (List.replicate n (Event.read Reg.FR) ++ [Event.write Reg.DR c]) } := by
  obtain ⟨n, fr, nx, hn, hst, hw⟩ := busyWait_ok k.FR_TXFF s (settles_drains _ _ h)
  refine ⟨n, fr, nx, hn, hst, ?_⟩
  simp [uart_putchar, hw, wr, Uart.set, List.append_assoc]

theorem emitLoop_ok (k : Consts) (buf : List Nat) :
    ∀ (m : Nat) (s : Uart), m ≤ bufSize → m ≤ buf.length → settles k.FR_TXFF s →
      ∃ s1 t, emitLoop k m buf s = .ok s1 ∧ s1.steady = s.steady ∧
        s1.trace = s.trace ++ t ∧ writesTo Reg.DR t = (buf.take m).reverse ∧ txOnly t := by
  intro m
  induction m with
  | zero =>
    intro s _ _ _
    exact ⟨s, [], rfl, rfl, by simp, by simp [writesTo], by simp [txOnly]⟩
  | succ j ih =>
    intro s hm hlen hs
    obtain ⟨n, fr, nx, -, hst, hp⟩ := uart_putchar_ok k (buf.getD j 0) s hs
    have hs1 : settles k.FR_TXFF
        { s with
          FR := fr, frNext := nx, DR := buf.getD j 0,
          trace := s.trace ++ (List.replicate n (Event.read Reg.FR) ++
            [Event.write Reg.DR (buf.getD j 0)]) } := by
      simpa [settles, Uart.steady, hst] using hs
    obtain ⟨s1, t, hrun, hst1, htr, hw, htx⟩ := ih _ (by omega) (by omega) hs1
    refine ⟨s1, (List.replicate n (Event.read Reg.FR) ++ [Event.write Reg.DR (buf.getD j 0)]) ++ t,
      ?_, ?_, ?_, ?_, ?_⟩
    · have hj : j < bufSize := by omega
      simp only [emitLoop, if_pos hj, hp]
      exact hrun
    · rw [hst1]; simp [Uart.steady, hst]
    · rw [htr]; simp [List.append_assoc]
    · have hj : j < buf.length := by omega
      have hrev : (buf.take (j + 1)).reverse = buf.getD j 0 :: (buf.take j).reverse := by
        rw [List.take_succ]
        simp [List.getD_eq_getElem?_getD, List.getElem?_eq_getElem hj]
      rw [writesTo_append, writesTo_append, writesTo_replicate_read, hw, hrev]
      simp [writesTo]
    · intro e he
      rcases List.mem_append.1 he with h1 | h1
      · rcases List.mem_append.1 h1 with h2 | h2
        · exact Or.inl (List.eq_of_mem_replicate h2)
        · exact Or.inr ⟨_, by simpa using h2⟩
      · exact htx e h1

theorem take_set_self (l : List Nat) (i a : Nat) : (l.set i a).take i = l.take i :=
  List.ext_getElem? fun j => by
    rw [List.getElem?_take, List.getElem?_take]
    split
    · rw [List.getElem?_set_ne (by omega)]
    · rfl

theorem digitLoop_ok :
    ∀ (fuel num i : Nat) (buf : List Nat), num ≤ fuel →
      i + (Nat.digits 10 num).length ≤ bufSize → buf.length = bufSize →
      ∃ buf1, digitLoop fuel num i buf = .ok (i + (Nat.digits 10 num).length, buf1) ∧
        buf1.length = bufSize ∧
        buf1.take (i + (Nat.digits 10 num).length)
          = buf.take i ++ (Nat.digits 10 num).map (fun d => 48 + d) := by
  intro fuel
  induction fuel with
  | zero =>
    intro num i buf hfuel _ hlen
    have h0 : num = 0 := by omega
    subst h0
    exact ⟨buf, by simp [digitLoop], hlen, by simp⟩
  | succ fuel ih =>
    intro num i buf hfuel hcap hlen
    by_cases h0 : num = 0
    · subst h0
      exact ⟨buf, by simp [digitLoop], hlen, by simp⟩
    · have hdig : Nat.digits 10 num = (num % 10) :: Nat.digits 10 (num / 10) :=
        Nat.digits_def' (by norm_num) (Nat.pos_of_ne_zero h0)
      rw [hdig] at hcap ⊢
      simp only [List.length_cons] at hcap ⊢
      have hi : i < bufSize := by omega
      have hr : (48 + num % 10 % 2 ^ 8) % 2 ^ 8 = 48 + num % 10 := by
        have := Nat.mod_lt num (show 10 > 0 by norm_num)
        omega
      obtain ⟨buf1, hrun, hlen1, htake⟩ :=
        ih (num / 10) (i + 1) (buf.set i (48 + num % 10))
          (by have := Nat.div_lt_self (Nat.pos_of_ne_zero h0) (show 1 < 10 by norm_num); omega)
          (by omega) (by simpa using hlen)
      refine ⟨buf1, ?_, hlen1, ?_⟩
      · simp only [digitLoop, if_pos h0, if_pos hi, hr, ne_eq, not_false_eq_true]
        rw [hrun]
        congr 2
        omega
      · have e1 : i + ((Nat.digits 10 (num / 10)).length + 1)
            = i + 1 + (Nat.digits 10 (num / 10)).length := by omega
        rw [e1, htake, List.take_succ]
        have hib : i < buf.length := by omega
        simp [take_set_self, List.getElem?_set_self hib]

/-- For a number of at most eight digits `uart_write_uint` transmits the decimal
representation, and accesses nothing but the flag and data registers. -/
theorem uart_write_uint_small (k : Consts) (num : Nat) (s : Uart) (hnum : num < 10 ^ 8)
    (hs : settles k.FR_TXFF s) :
    ∃ s1 t, uart_write_uint k num s = .ok s1 ∧ s1.trace = s.trace ++ t ∧
      writesTo Reg.DR t = decimal num ∧ txOnly t := by
  have hL : (Nat.digits 10 num).length ≤ bufSize := by
    by_cases h0 : num = 0
    · simp [h0]
    · have h1 := Nat.base_pow_length_digits_le 10 num (by norm_num) h0
      have h2 : 10 ^ (Nat.digits 10 num).length < 10 ^ 9 := by omega
      have h3 := (Nat.pow_lt_pow_iff_right (show 1 < 10 by norm_num)).1 h2
      simp only [bufSize]
      omega
  obtain ⟨buf1, hrun, hlen1, htake⟩ :=
    digitLoop_ok num num 0 (List.replicate bufSize 0) (le_refl _) (by simpa using hL) (by simp)
  obtain ⟨s1, t, hemit, -, htr, hw, htx⟩ :=
    emitLoop_ok k buf1 (Nat.digits 10 num).length s hL (by omega) hs
  refine ⟨s1, t, ?_, htr, ?_, htx⟩
  · simp only [uart_write_uint, hrun]
    simpa using hemit
  · rw [hw, decimal]
    simp only [Nat.zero_add, List.take_zero, List.nil_append] at htake
    rw [htake]

/-- C10, at the failing input: 100000000 is a 32-bit number of nine digits; the
ninth digit is stored past the end of the eight-character buffer, and nothing is
transmitted by the embedding of the code. -/
theorem uart_write_uint_nine_digits :
    (10 : Nat) ^ 8 < 2 ^ 32 ∧ (decimal (10 ^ 8)).length = 9 ∧
      uart_write_uint pl011 (10 ^ 8) idle = .error Fault.out_of_bounds := by
  refine ⟨by norm_num, by norm_num [decimal], by decide⟩

/-! ## The digit buffer -/

/-- When the digits of `num` do not fit behind index `i`, the first loop of
`uart_write_uint` stores past the end of the buffer. -/
theorem digitLoop_overflow :
    ∀ (fuel num i : Nat) (buf : List Nat), num ≤ fuel → i ≤ bufSize →
      bufSize < i + (Nat.digits 10 num).length →
      digitLoop fuel num i buf = .error Fault.out_of_bounds := by
  intro fuel
  induction fuel with
  | zero =>
    intro num i buf hfuel hi hover
    have h0 : num = 0 := by omega
    subst h0
    simp at hover
    omega
  | succ fuel ih =>
    intro num i buf hfuel hi hover
    by_cases h0 : num = 0
    · subst h0
      simp at hover
      omega
    · have hdig : Nat.digits 10 num = (num % 10) :: Nat.digits 10 (num / 10) :=
        Nat.digits_def' (by norm_num) (Nat.pos_of_ne_zero h0)
      rw [hdig] at hover
      simp only [List.length_cons] at hover
      by_cases hlt : i < bufSize
      · simp only [digitLoop, if_pos h0, if_pos hlt, ne_eq, not_false_eq_true]
        exact ih _ _ _
          (by have := Nat.div_lt_self (Nat.pos_of_ne_zero h0) (show 1 < 10 by norm_num); omega)
          (by omega) (by omega)
      · simp only [digitLoop, if_pos h0, if_neg hlt, ne_eq, not_false_eq_true]

/-- C11, as the code has it: the buffer holds eight characters, and every 32-bit
number from 100000000 on has more digits than that; for each of them
`uart_write_uint` stores a digit at index 8, past the end of the buffer. -/
theorem uart_write_uint_overflow (k : Consts) (num : Nat) (s : Uart)
    (hbig : 10 ^ 8 ≤ num) (_h32 : num < 2 ^ 32) :
    bufSize < (Nat.digits 10 num).length ∧
      uart_write_uint k num s = .error Fault.out_of_bounds := by
  have hlen : bufSize < (Nat.digits 10 num).length := by
    have h1 : num < 10 ^ (Nat.digits 10 num).length :=
      Nat.lt_base_pow_length_digits (by norm_num)
    have h2 : 10 ^ 8 < 10 ^ (Nat.digits 10 num).length := lt_of_le_of_lt hbig h1
    exact (Nat.pow_lt_pow_iff_right (show 1 < 10 by norm_num)).1 h2
  refine ⟨hlen, ?_⟩
  simp only [uart_write_uint,
    digitLoop_overflow num num 0 (List.replicate bufSize 0) (le_refl _) (Nat.zero_le _)
      (by simpa using hlen)]

/-- C11, at the largest 32-bit number, which has ten digits. -/
theorem uart_write_uint_overflow_witness :
    (10 : Nat) ^ 8 ≤ 4294967295 ∧ (4294967295 : Nat) < 2 ^ 32 ∧
    (bufSize < (Nat.digits 10 4294967295).length ∧
      uart_write_uint pl011 4294967295 idle = .error Fault.out_of_bounds) :=
  ⟨by norm_num, by norm_num, uart_write_uint_overflow pl011 4294967295 idle (by norm_num) (by norm_num)⟩

/-- C12: `uart_write_uint(0)` renders nothing: the digit loop is not entered, no
character is sent, and the peripheral, its access log included, is left as it
was. -/
theorem uart_write_uint_zero (k : Consts) (s : Uart) :
    uart_write_uint k 0 s = .ok s ∧ decimal 0 = [] ∧
      (∀ s1, uart_write_uint k 0 s = .ok s1 →
        writesTo Reg.DR (s1.trace.drop s.trace.length) = [] ∧ s1 = s) := by
  have h : uart_write_uint k 0 s = .ok s := by
    simp [uart_write_uint, digitLoop, emitLoop]
  refine ⟨h, by simp [decimal], ?_⟩
  intro s1 h1
  rw [h] at h1
  injection h1 with h1
  subst h1
  simp [writesTo]

/-! ## `uart_write` and the interrupt handler -/

/-- A transmission writes the data register only. -/
theorem writesTo_txOnly (r : Reg) (t : List Event) (ht : txOnly t) (hr : r ≠ Reg.DR) :
    writesTo r t = [] := by
  induction t with
  | nil => rfl
  | cons e t ih =>
    have ht1 : txOnly t := fun x hx => ht x (List.mem_cons_of_mem _ hx)
    rcases ht e (List.mem_cons_self _ _) with h | ⟨c, h⟩
    · subst h; simpa [writesTo] using ih ht1
    · subst h
      have : ¬ Reg.DR = r := fun h => hr h.symm
      simpa [writesTo, this] using ih ht1

theorem txOnly_append (t1 t2 : List Event) (h1 : txOnly t1) (h2 : txOnly t2) :
    txOnly (t1 ++ t2) := by
  intro e he
  rcases List.mem_append.1 he with h | h
  · exact h1 e h
  · exact h2 e h

theorem txOnly_putchar (n c : Nat) :
    txOnly (List.replicate n (Event.read Reg.FR) ++ [Event.write Reg.DR c]) := by
  intro e he
  rcases List.mem_append.1 he with h | h
  · exact Or.inl (List.eq_of_mem_replicate h)
  · exact Or.inr ⟨c, by simpa using h⟩

/-- With a transmit-FIFO-full flag that ends up clear, `uart_write` comes back
having written the bytes of a NUL-free string to the data register, in order,
between polls of the flag register, and nothing else. -/
theorem uart_write_ok (k : Consts) :
    ∀ (data : List Nat) (s : Uart), (∀ c ∈ data, c ≠ 0) → settles k.FR_TXFF s →
      ∃ s1 t, uart_write k data s = .ok s1 ∧ s1.steady = s.steady ∧
        s1 = { s with FR := s1.FR, frNext := s1.frNext, DR := s1.DR, trace := s.trace ++ t } ∧
        writesTo Reg.DR t = data ∧ txOnly t := by
  intro data
  induction data with
  | nil =>
    intro s _ _
    exact ⟨s, [], rfl, rfl, by simp, rfl, by simp [txOnly]⟩
  | cons c rest ih =>
    intro s hnz hs
    have hc : c ≠ 0 := hnz c (List.mem_cons_self _ _)
    obtain ⟨n, fr, nx, -, hst, hp⟩ := uart_putchar_ok k c s hs
    have hs1 : settles k.FR_TXFF
        { s with
          FR := fr, frNext := nx, DR := c,
          trace := s.trace ++ (List.replicate n (Event.read Reg.FR) ++ [Event.write Reg.DR c]) } := by
      simpa [settles, Uart.steady, hst] using hs
    obtain ⟨s1, t, hrun, hst1, hfr, hw, htx⟩ :=
      ih _ (fun x hx => hnz x (List.mem_cons_of_mem _ hx)) hs1
    refine ⟨s1, (List.replicate n (Event.read Reg.FR) ++ [Event.write Reg.DR c]) ++ t,
      ?_, ?_, ?_, ?_, ?_⟩
    · simp only [uart_write, if_pos hc, hp]
      exact hrun
    · rw [hst1]; simp [Uart.steady, hst]
    · rw [hfr]; simp [List.append_assoc]
    · rw [writesTo_append, writesTo_append, writesTo_replicate_read, hw]
      simp [writesTo]
    · exact txOnly_append _ _ (txOnly_putchar n c) htx

/-- Whenever `uart_putchar` comes back, it has polled the flag register, written
the character to the data register and touched nothing else. -/
theorem uart_putchar_frame (k : Consts) (c : Nat) (s s1 : Uart)
    (h : uart_putchar k c s = .ok s1) :
    ∃ n, s1 =
      { s with
        FR := s1.FR, frNext := s1.frNext, DR := c,
        trace := s.trace ++ (List.replicate n (Event.read Reg.FR) ++ [Event.write Reg.DR c]) } := by
  unfold uart_putchar busyWait at h
  cases hp : pollWhileSet k.FR_TXFF (s.frNext.length + 1) s with
  | error e => rw [hp] at h; cases h
  | ok s2 =>
    rw [hp] at h
    injection h with h
    obtain ⟨-, n, -, hs2⟩ := pollWhileSet_frame _ _ _ _ hp
    refine ⟨n, ?_⟩
    rw [← h, hs2]
    simp [wr, Uart.set, List.append_assoc]

/-- Whenever `uart_write` comes back from a NUL-free string, its register writes
are the bytes of the string to the data register, in order. -/
theorem uart_write_frame (k : Consts) :
    ∀ (data : List Nat) (s s1 : Uart), (∀ c ∈ data, c ≠ 0) → uart_write k data s = .ok s1 →
      ∃ t, s1 = { s with FR := s1.FR, frNext := s1.frNext, DR := s1.DR, trace := s.trace ++ t } ∧
        writesTo Reg.DR t = data ∧ txOnly t := by
  intro data
  induction data with
  | nil =>
    intro s s1 _ h
    injection h with h
    subst h
    exact ⟨[], by simp, rfl, by simp [txOnly]⟩
  | cons c rest ih =>
    intro s s1 hnz h
    have hc : c ≠ 0 := hnz c (List.mem_cons_self _ _)
    simp only [uart_write, if_pos hc] at h
    cases hp : uart_putchar k c s with
    | error e => rw [hp] at h; cases h
    | ok s2 =>
      rw [hp] at h
      obtain ⟨n, hs2⟩ := uart_putchar_frame k c s s2 hp
      obtain ⟨t, hfr, hw, htx⟩ := ih s2 s1 (fun x hx => hnz x (List.mem_cons_of_mem _ hx)) h
      refine ⟨(List.replicate n (Event.read Reg.FR) ++ [Event.write Reg.DR c]) ++ t, ?_, ?_, ?_⟩
      · rw [hfr, hs2]; simp [List.append_assoc]
      · rw [writesTo_append, writesTo_append, writesTo_replicate_read, hw]
        simp [writesTo]
      · exact txOnly_append _ _ (txOnly_putchar n c) htx

/-- The outcome of `uart_putchar`, by its access log. -/
theorem uart_putchar_log (k : Consts) (c : Nat) (s : Uart) (h : settles k.FR_TXFF s) :
    ∃ s1 n, uart_putchar k c s = .ok s1 ∧ settles k.FR_TXFF s1 ∧
      s1.trace = s.trace ++ (List.replicate n (Event.read Reg.FR) ++ [Event.write Reg.DR c]) := by
  obtain ⟨n, fr, nx, -, hst, hp⟩ := uart_putchar_ok k c s h
  refine ⟨_, n, hp, ?_, rfl⟩
  simpa [settles, Uart.steady, hst] using h

/-- The receive branch of `uart_isr`: one read of the masked-interrupt status,
one read of the data register, then the echo. -/
theorem uart_isr_rx (k : Consts) (s : Uart) (hrx : s.MIS &&& k.RX_INTERRUPT ≠ 0)
    (hs : settles k.FR_TXFF s) :
    ∃ s1 t, uart_isr k s = .ok s1 ∧
      s1.trace = s.trace ++ ([Event.read Reg.MIS, Event.read Reg.DR] ++ t) ∧ txOnly t ∧
      writesTo Reg.DR t =
        (if (s.DR &&& k.DR_DATA_MASK) % 2 ^ 8 = 13 then [(s.DR &&& k.DR_DATA_MASK) % 2 ^ 8, 10]
         else [(s.DR &&& k.DR_DATA_MASK) % 2 ^ 8]) := by
  have hs0 : settles k.FR_TXFF (rd Reg.DR (rd Reg.MIS s).2).2 := by
    simpa [settles, Uart.steady, rd] using hs
  obtain ⟨sp, n, hp, hsp, htp⟩ :=
    uart_putchar_log k ((s.DR &&& k.DR_DATA_MASK) % 2 ^ 8) _ hs0
  have hd : (rd Reg.DR (rd Reg.MIS s).2).1 = s.DR := by simp [rd, Uart.get]
  have hm : (rd Reg.MIS s).1 = s.MIS := by simp [rd, Uart.get]
  have ht0 : (rd Reg.DR (rd Reg.MIS s).2).2.trace
      = s.trace ++ [Event.read Reg.MIS, Event.read Reg.DR] := by simp [rd]
  by_cases hc : (s.DR &&& k.DR_DATA_MASK) % 2 ^ 8 = 13
  · obtain ⟨s1, t, hrun, -, hfr, hw, htx⟩ :=
      uart_write_ok k (literal "\n") sp (by decide) hsp
    refine ⟨s1, (List.replicate n (Event.read Reg.FR) ++
        [Event.write Reg.DR ((s.DR &&& k.DR_DATA_MASK) % 2 ^ 8)]) ++ t, ?_, ?_, ?_, ?_⟩
    · simp only [uart_isr, hm, hd, if_pos hrx, hp, if_pos hc, ne_eq, not_false_eq_true]
      exact hrun
    · rw [hfr]
      simp only [htp, ht0, List.append_assoc]
    · exact txOnly_append _ _ (txOnly_putchar _ _) htx
    · rw [if_pos hc, writesTo_append, writesTo_append, writesTo_replicate_read, hw]
      simp [writesTo, literal]
  · refine ⟨sp, List.replicate n (Event.read Reg.FR) ++
        [Event.write Reg.DR ((s.DR &&& k.DR_DATA_MASK) % 2 ^ 8)], ?_, ?_, txOnly_putchar _ _, ?_⟩
    · simp only [uart_isr, hm, hd, if_pos hrx, hp, if_neg hc, ne_eq, not_false_eq_true]
    · simp only [htp, ht0, List.append_assoc]
    · rw [if_neg hc, writesTo_append, writesTo_replicate_read]
      simp [writesTo]

/-- The break-error branch of `uart_isr`: one read of the masked-interrupt
status, the diagnostic text, the two clearing writes. -/
theorem uart_isr_be (k : Consts) (s : Uart) (hrx : s.MIS &&& k.RX_INTERRUPT = 0)
    (hbe : s.MIS &&& k.BE_INTERRUPT ≠ 0) (hs : settles k.FR_TXFF s) :
    ∃ s1 t, uart_isr k s = .ok s1 ∧
      s1.trace = s.trace ++ ([Event.read Reg.MIS] ++ t ++
        [Event.write Reg.RSRECR k.ECR_BE, Event.write Reg.ICR k.BE_INTERRUPT]) ∧
      txOnly t ∧ writesTo Reg.DR t = breakMsg := by
  have hs0 : settles k.FR_TXFF (rd Reg.MIS s).2 := by
    simpa [settles, Uart.steady, rd] using hs
  have hm : (rd Reg.MIS s).1 = s.MIS := by simp [rd, Uart.get]
  obtain ⟨s1, t, hrun, -, hfr, hw, htx⟩ := uart_write_ok k breakMsg _ (by decide) hs0
  refine ⟨wr Reg.ICR k.BE_INTERRUPT (wr Reg.RSRECR k.ECR_BE s1), t, ?_, ?_, htx, hw⟩
  · simp only [uart_isr, hm, hrx, hbe, hrun, ne_eq, not_true_eq_false, not_false_eq_true,
      if_true, if_false]
  · rw [hfr]; simp [wr, Uart.set, rd, List.append_assoc]

/-- With neither bit set `uart_isr` only reads the masked-interrupt status. -/
theorem uart_isr_idle (k : Consts) (s : Uart) (hrx : s.MIS &&& k.RX_INTERRUPT = 0)
    (hbe : s.MIS &&& k.BE_INTERRUPT = 0) :
    uart_isr k s = .ok { s with trace := s.trace ++ [Event.read Reg.MIS] } := by
  simp [uart_isr, rd, Uart.get, hrx, hbe]

/-- In a transmission the register writes are the data-register writes. -/
theorem writes_txOnly (t : List Event) (ht : txOnly t) :
    writes t = (writesTo Reg.DR t).map (fun c => (Reg.DR, c)) := by
  induction t with
  | nil => rfl
  | cons e t ih =>
    have ht1 : txOnly t := fun x hx => ht x (List.mem_cons_of_mem _ hx)
    rcases ht e (List.mem_cons_self _ _) with h | ⟨c, h⟩
    · subst h; simpa [writes, writesTo] using ih ht1
    · subst h; simpa [writes, writesTo] using ih ht1

theorem read_DR_not_mem_txOnly (t : List Event) (ht : txOnly t) : Event.read Reg.DR ∉ t := by
  intro h
  rcases ht _ h with h1 | ⟨c, h1⟩
  · cases h1
  · cases h1

/-- C13: run with the receive bit set in the masked-interrupt status (and a
transmitter that gets ready), `uart_isr` transmits the received byte, the data
register masked with `DR_DATA_MASK`, followed by a line feed exactly when that
byte is a carriage return, and nothing else; a carriage return is echoed as
0x0D then 0x0A. -/
theorem uart_isr_echo (k : Consts) (s : Uart) (hrx : s.MIS &&& k.RX_INTERRUPT ≠ 0)
    (hs : settles k.FR_TXFF s) :
    ∃ s1, uart_isr k s = .ok s1 ∧
      writesTo Reg.DR (s1.trace.drop s.trace.length) =
        (if (s.DR &&& k.DR_DATA_MASK) % 2 ^ 8 = 0x0D
          then [(s.DR &&& k.DR_DATA_MASK) % 2 ^ 8, 0x0A]
          else [(s.DR &&& k.DR_DATA_MASK) % 2 ^ 8]) ∧
      writes (s1.trace.drop s.trace.length) =
        (writesTo Reg.DR (s1.trace.drop s.trace.length)).map (fun c => (Reg.DR, c)) ∧
      ((s.DR &&& k.DR_DATA_MASK) % 2 ^ 8 = 0x0D →
        writesTo Reg.DR (s1.trace.drop s.trace.length) = [0x0D, 0x0A]) ∧
      (k.DR_DATA_MASK = 0xFF → (s.DR &&& k.DR_DATA_MASK) % 2 ^ 8 = s.DR &&& k.DR_DATA_MASK) := by
  obtain ⟨s1, t, hrun, htr, htx, hw⟩ := uart_isr_rx k s hrx hs
  have hdrop : s1.trace.drop s.trace.length = [Event.read Reg.MIS, Event.read Reg.DR] ++ t := by
    rw [htr]; simp
  have hw2 : writesTo Reg.DR ([Event.read Reg.MIS, Event.read Reg.DR] ++ t) = writesTo Reg.DR t := by
    simp [writesTo]
  have hws : writes ([Event.read Reg.MIS, Event.read Reg.DR] ++ t) = writes t := by
    simp [writes]
  refine ⟨s1, hrun, ?_, ?_, ?_, ?_⟩
  · rw [hdrop, hw2, hw]
  · rw [hdrop, hw2, hws]; exact writes_txOnly t htx
  · intro hc
    rw [hdrop, hw2, hw, if_pos hc, hc]
  · intro hm
    rw [hm]
    have h := Nat.and_pow_two_sub_one_eq_mod s.DR 8
    norm_num at h
    rw [h]
    simp

/-- C13, at a carriage return arriving on an otherwise idle peripheral. -/
theorem uart_isr_echo_witness :
    ({ idle with MIS := 0x10, DR := 0x0D } : Uart).MIS &&& pl011.RX_INTERRUPT ≠ 0 ∧
    settles pl011.FR_TXFF { idle with MIS := 0x10, DR := 0x0D } ∧
    ∃ s1, uart_isr pl011 { idle with MIS := 0x10, DR := 0x0D } = .ok s1 ∧
      writesTo Reg.DR (s1.trace.drop ({ idle with MIS := 0x10, DR := 0x0D } : Uart).trace.length)
        = [0x0D, 0x0A] := by
  obtain ⟨s1, h, -, -, hcr, -⟩ :=
    uart_isr_echo pl011 { idle with MIS := 0x10, DR := 0x0D } (by decide) (by decide)
  exact ⟨by decide, by decide, s1, h, hcr (by decide)⟩

/-- C14: run with the break-error bit set and the receive bit clear (and a
transmitter that gets ready), `uart_isr` reads the masked-interrupt status and
then, in this order, transmits the text "Break error detected!\n" character by
character, writes `ECR_BE` once to the receive-status/error-clear register and
writes `BE_INTERRUPT` once to the interrupt-clear register; it never reads the
data register. -/
theorem uart_isr_break (k : Consts) (s : Uart) (hrx : s.MIS &&& k.RX_INTERRUPT = 0)
    (hbe : s.MIS &&& k.BE_INTERRUPT ≠ 0) (hs : settles k.FR_TXFF s) :
    ∃ s1 t, uart_isr k s = .ok s1 ∧
      s1.trace.drop s.trace.length =
        [Event.read Reg.MIS] ++ t ++
          [Event.write Reg.RSRECR k.ECR_BE, Event.write Reg.ICR k.BE_INTERRUPT] ∧
      txOnly t ∧ writesTo Reg.DR t = literal "Break error detected!\n" ∧
      writes (s1.trace.drop s.trace.length) =
        (literal "Break error detected!\n").map (fun c => (Reg.DR, c)) ++
          [(Reg.RSRECR, k.ECR_BE), (Reg.ICR, k.BE_INTERRUPT)] ∧
      Event.read Reg.DR ∉ s1.trace.drop s.trace.length := by
  obtain ⟨s1, t, hrun, htr, htx, hw⟩ := uart_isr_be k s hrx hbe hs
  have hdrop : s1.trace.drop s.trace.length = [Event.read Reg.MIS] ++ t ++
      [Event.write Reg.RSRECR k.ECR_BE, Event.write Reg.ICR k.BE_INTERRUPT] := by
    rw [htr]; simp
  have hws : ∀ l1 l2 : List Event, writes (l1 ++ l2) = writes l1 ++ writes l2 := by
    intro l1 l2
    induction l1 with
    | nil => rfl
    | cons e l ih => cases e <;> simp [writes, ih]
  refine ⟨s1, t, hrun, hdrop, htx, hw, ?_, ?_⟩
  · rw [hdrop, hws, hws, writes_txOnly t htx, hw]
    simp [writes, breakMsg]
  · rw [hdrop]
    intro h
    simp only [List.mem_append, List.mem_singleton, List.mem_cons, List.mem_nil_iff,
      or_false] at h
    rcases h with (h | h) | h | h
    · cases h
    · exact read_DR_not_mem_txOnly t htx h
    · cases h
    · cases h

/-- C14, at a break error signalled on an otherwise idle peripheral. -/
theorem uart_isr_break_witness :
    ({ idle with MIS := 0x200 } : Uart).MIS &&& pl011.RX_INTERRUPT = 0 ∧
    ({ idle with MIS := 0x200 } : Uart).MIS &&& pl011.BE_INTERRUPT ≠ 0 ∧
    settles pl011.FR_TXFF { idle with MIS := 0x200 } ∧
    ∃ s1 t, uart_isr pl011 { idle with MIS := 0x200 } = .ok s1 ∧
      s1.trace.drop ({ idle with MIS := 0x200 } : Uart).trace.length =
        [Event.read Reg.MIS] ++ t ++
          [Event.write Reg.RSRECR pl011.ECR_BE, Event.write Reg.ICR pl011.BE_INTERRUPT] ∧
      txOnly t ∧ writesTo Reg.DR t = literal "Break error detected!\n" := by
  obtain ⟨s1, t, h, hd, htx, hw, -, -⟩ :=
    uart_isr_break pl011 { idle with MIS := 0x200 } (by decide) (by decide) (by decide)
  exact ⟨by decide, by decide, by decide, s1, t, h, hd, htx, hw⟩

/-- C15: `uart_isr` takes one branch per invocation, the receive branch first:
with both the receive bit and the break-error bit set in the masked-interrupt
status, only the echo is performed; neither the receive-status/error-clear
register nor the interrupt-clear register is written, and what is transmitted
is the echo (one or two bytes), not the diagnostic text. -/
theorem uart_isr_one_branch (k : Consts) (s : Uart) (hrx : s.MIS &&& k.RX_INTERRUPT ≠ 0)
    (_hbe : s.MIS &&& k.BE_INTERRUPT ≠ 0) (hs : settles k.FR_TXFF s) :
    ∃ s1, uart_isr k s = .ok s1 ∧
      writesTo Reg.DR (s1.trace.drop s.trace.length) =
        (if (s.DR &&& k.DR_DATA_MASK) % 2 ^ 8 = 0x0D
          then [(s.DR &&& k.DR_DATA_MASK) % 2 ^ 8, 0x0A]
          else [(s.DR &&& k.DR_DATA_MASK) % 2 ^ 8]) ∧
      writesTo Reg.RSRECR (s1.trace.drop s.trace.length) = [] ∧
      writesTo Reg.ICR (s1.trace.drop s.trace.length) = [] ∧
      writesTo Reg.DR (s1.trace.drop s.trace.length) ≠ literal "Break error detected!\n" := by
  obtain ⟨s1, t, hrun, htr, htx, hw⟩ := uart_isr_rx k s hrx hs
  have hdrop : s1.trace.drop s.trace.length = [Event.read Reg.MIS, Event.read Reg.DR] ++ t := by
    rw [htr]; simp
  have hskip : ∀ r, writesTo r ([Event.read Reg.MIS, Event.read Reg.DR] ++ t) = writesTo r t := by
    intro r; simp [writesTo]
  refine ⟨s1, hrun, ?_, ?_, ?_, ?_⟩
  · rw [hdrop, hskip, hw]
  · rw [hdrop, hskip]; exact writesTo_txOnly _ t htx (by decide)
  · rw [hdrop, hskip]; exact writesTo_txOnly _ t htx (by decide)
  · rw [hdrop, hskip, hw]
    intro h
    have hl := congrArg List.length h
    have h22 : (literal "Break error detected!\n").length = 22 := by decide
    rw [h22] at hl
    split at hl <;> simp at hl

/-- C15, with both bits set (status 0x210) and the byte 0x41 received: the
byte is echoed and that is all. -/
theorem uart_isr_one_branch_witness :
    ({ idle with MIS := 0x210, DR := 0x41 } : Uart).MIS &&& pl011.RX_INTERRUPT ≠ 0 ∧
    ({ idle with MIS := 0x210, DR := 0x41 } : Uart).MIS &&& pl011.BE_INTERRUPT ≠ 0 ∧
    settles pl011.FR_TXFF { idle with MIS := 0x210, DR := 0x41 } ∧
    ∃ s1, uart_isr pl011 { idle with MIS := 0x210, DR := 0x41 } = .ok s1 ∧
      writes (s1.trace.drop ({ idle with MIS := 0x210, DR := 0x41 } : Uart).trace.length)
        = [(Reg.DR, 0x41)] := by
  obtain ⟨s1, h, -, -, -, -⟩ :=
    uart_isr_one_branch pl011 { idle with MIS := 0x210, DR := 0x41 }
      (by decide) (by decide) (by decide)
  refine ⟨by decide, by decide, by decide, s1, h, ?_⟩
  have h2 : uart_isr pl011 { idle with MIS := 0x210, DR := 0x41 } = .ok s1 := h
  have h3 : uart_isr pl011 { idle with MIS := 0x210, DR := 0x41 }
      = .ok { idle with
              MIS := 0x210, DR := 0x41,
              trace := [Event.read Reg.MIS, Event.read Reg.DR, Event.read Reg.FR,
                Event.write Reg.DR 0x41] } := by decide
  rw [h3] at h2
  injection h2 with h2
  subst h2
  decide

/-- C16: for a string without an embedded NUL, whenever `uart_write` comes back
(every wait on the transmit-FIFO-full flag has come to an end) it has written to
the data register exactly the characters of the string, each once and in order,
and has written no other register; it does come back when the flag ends up
clear; for the empty string it does nothing at all. -/
theorem uart_write_string (k : Consts) (data : List Nat) (s : Uart)
    (hnz : ∀ c ∈ data, c ≠ 0) :
    (∀ s1, uart_write k data s = .ok s1 →
      writesTo Reg.DR (s1.trace.drop s.trace.length) = data ∧
      writes (s1.trace.drop s.trace.length) = data.map (fun c => (Reg.DR, c)) ∧
      s1 = { s with FR := s1.FR, frNext := s1.frNext, DR := s1.DR, trace := s1.trace }) ∧
    (settles k.FR_TXFF s → ∃ s1, uart_write k data s = .ok s1) ∧
    uart_write k [] s = .ok s := by
  refine ⟨?_, ?_, rfl⟩
  · intro s1 hrun
    obtain ⟨t, hfr, hw, htx⟩ := uart_write_frame k data s s1 hnz hrun
    have htr : s1.trace = s.trace ++ t := by rw [hfr]
    have hdrop : s1.trace.drop s.trace.length = t := by rw [htr]; simp
    refine ⟨?_, ?_, ?_⟩
    · rw [hdrop, hw]
    · rw [hdrop, writes_txOnly t htx, hw]
    · rw [htr]; exact hfr
  · intro hs
    obtain ⟨s1, t, hrun, -⟩ := uart_write_ok k data s hnz hs
    exact ⟨s1, hrun⟩

/-- C16, at the two characters of "Hi", the transmitter busy for one poll. -/
theorem uart_write_string_witness :
    (∀ c ∈ literal "Hi", c ≠ 0) ∧
    ∃ s1, uart_write pl011 (literal "Hi") { idle with FR := 0x20, frNext := [0] } = .ok s1 ∧
      writesTo Reg.DR
        (s1.trace.drop ({ idle with FR := 0x20, frNext := [0] } : Uart).trace.length)
          = literal "Hi" := by
  obtain ⟨hall, hret, -⟩ :=
    uart_write_string pl011 (literal "Hi") { idle with FR := 0x20, frNext := [0] } (by decide)
  obtain ⟨s1, h⟩ := hret (by decide)
  exact ⟨by decide, s1, h, (hall s1 h).1⟩

/-! ## `uart_configure` as a sequence of accesses -/

/-- The polls of a wait read the values of the flag register in order; the wait
ends at the first poll, say the `n`-th, and that poll has seen the flag clear. -/
theorem pollWhileSet_observes (mask : Nat) :
    ∀ (l : List Nat) (s : Uart), s.frNext = l → drains mask s →
      ∀ fuel, l.length < fuel → ∃ n v s1, pollWhileSet mask fuel s = .ok s1 ∧ 0 < n ∧
        (s.FR :: l)[n - 1]? = some v ∧ v &&& mask = 0 ∧
        s1.trace = s.trace ++ List.replicate n (Event.read Reg.FR) := by
  intro l
  induction l with
  | nil =>
    intro s hl hd fuel hfuel
    obtain ⟨v, hv, hclear⟩ := hd
    rw [hl] at hv
    simp only [List.mem_singleton] at hv
    subst hv
    obtain ⟨f, rfl⟩ : ∃ f, fuel = f + 1 := ⟨fuel - 1, by simp at hfuel; omega⟩
    refine ⟨1, s.FR, (rd Reg.FR s).2, ?_, Nat.one_pos, by simp, hclear, ?_⟩
    · simp [pollWhileSet, rd, Uart.get, hclear]
    · simp [rd, Uart.tick, hl]
  | cons a l ih =>
    intro s hl hd fuel hfuel
    obtain ⟨f, rfl⟩ : ∃ f, fuel = f + 1 := ⟨fuel - 1, by simp at hfuel; omega⟩
    by_cases hc : s.FR &&& mask = 0
    · refine ⟨1, s.FR, (rd Reg.FR s).2, ?_, Nat.one_pos, by simp, hc, ?_⟩
      · simp [pollWhileSet, rd, Uart.get, hc]
      · simp [rd, Uart.tick, hl]
    · have hd1 : drains mask (rd Reg.FR s).2 := by
        obtain ⟨v, hv, hclear⟩ := hd
        rw [hl] at hv
        rcases List.mem_cons.1 hv with h | h
        · subst h; exact absurd hclear hc
        · exact ⟨v, by simpa [rd, Uart.tick, hl] using h, hclear⟩
      have hl1 : (rd Reg.FR s).2.frNext = l := by simp [rd, Uart.tick, hl]
      have hfr1 : (rd Reg.FR s).2.FR = a := by simp [rd, Uart.tick, hl]
      have htr1 : (rd Reg.FR s).2.trace = s.trace ++ [Event.read Reg.FR] := by
        simp [rd, Uart.tick, hl]
      obtain ⟨n, v, s1, hrun, hn, hv, hclear, htr⟩ := ih _ hl1 hd1 f (by simp at hfuel; omega)
      refine ⟨n + 1, v, s1, ?_, Nat.succ_pos _, ?_, hclear, ?_⟩
      · simp only [pollWhileSet]
        rw [if_pos (by simpa [rd, Uart.get] using hc)]
        exact hrun
      · rw [hfr1] at hv
        obtain ⟨m, rfl⟩ : ∃ m, n = m + 1 := ⟨n - 1, by omega⟩
        simpa using hv
      · rw [htr, htr1, List.append_assoc]
        simp [List.replicate_succ]

/-- A successful `uart_configure` with its access log and the poll that saw the
busy flag clear. -/
theorem uart_configure_observes (k : Consts) (config : uart_config) (s : Uart)
    (hv : valid_config config) (hd : drains k.FR_BUSY s) :
    ∃ n v s1, uart_configure k config s = .ok (uart_error.UART_OK, s1) ∧ 0 < n ∧
      (s.FR :: s.frNext)[n - 1]? = some v ∧ v &&& k.FR_BUSY = 0 ∧
      s1.trace = s.trace ++ configureLog k config s n := by
  obtain ⟨n0, fr, nx, -, h⟩ := uart_configure_ok k config s hv hd
  have hd1 : drains k.FR_BUSY (rmw Reg.CR (fun v => v &&& bnot32 k.CR_UARTEN) s) := by
    simpa [drains, rmw, rd, wr, Uart.set] using hd
  have hnx : (rmw Reg.CR (fun v => v &&& bnot32 k.CR_UARTEN) s).frNext = s.frNext := by
    simp [rmw, rd, wr, Uart.set]
  have hfr : (rmw Reg.CR (fun v => v &&& bnot32 k.CR_UARTEN) s).FR = s.FR := by
    simp [rmw, rd, wr, Uart.set]
  obtain ⟨n, v, s2, hrun, hn, hv2, hclear, htr⟩ :=
    pollWhileSet_observes k.FR_BUSY _ _ rfl hd1
      ((rmw Reg.CR (fun v => v &&& bnot32 k.CR_UARTEN) s).frNext.length + 1) (Nat.lt_succ_self _)
  have hnm : n = n0 := by
    obtain ⟨⟨h5, h8⟩, hstop, h110, hmax⟩ := hv
    have c1 : ¬ (config.data_bits < 5 ∨ config.data_bits > 8) := by omega
    have c2 : ¬ (config.stop_bits = 0 ∨ config.stop_bits > 2) := by omega
    have c3 : ¬ (config.baudrate < 110 ∨ config.baudrate > 460800) := by omega
    have hb : busyWait k.FR_BUSY (rmw Reg.CR (fun v => v &&& bnot32 k.CR_UARTEN) s) = .ok s2 :=
      hrun
    simp only [uart_configure, if_neg c1, if_neg c2, if_neg c3, hb] at h
    injection h with h
    injection h with _ h
    have ht := congrArg (fun u : Uart => u.trace.length) h
    simp [rmw, rd, wr, Uart.set, Uart.get, irq_register_isr, configureLog, htr] at ht
    omega
  subst hnm
  rw [hnx, hfr] at hv2
  exact ⟨n, v, _, h, hn, hv2, hclear, rfl⟩

theorem and_bnot32_and_self (x m : Nat) : (x &&& bnot32 m) &&& m = 0 := by
  apply Nat.eq_of_testBit_eq
  intro i
  simp only [bnot32, Nat.testBit_and, Nat.testBit_xor, Nat.testBit_two_pow_sub_one,
    Nat.testBit_mod_two_pow, Nat.zero_testBit]
  by_cases hi : i < 32 <;> cases hm : m.testBit i <;> simp [hi]

theorem or_and_self (x m : Nat) : (x ||| m) &&& m = m := by
  apply Nat.eq_of_testBit_eq
  intro i
  simp only [Nat.testBit_and, Nat.testBit_or]
  cases hm : m.testBit i <;> simp

theorem and_bnot32_or_self (x m : Nat) (hx : x < 2 ^ 32) : (x &&& bnot32 m) ||| m = x ||| m := by
  apply Nat.eq_of_testBit_eq
  intro i
  simp only [bnot32, Nat.testBit_and, Nat.testBit_or, Nat.testBit_xor,
    Nat.testBit_two_pow_sub_one, Nat.testBit_mod_two_pow]
  by_cases hi : i < 32
  · cases hm : m.testBit i <;> simp [hi]
  · have : x.testBit i = false := by
      apply Nat.testBit_lt_two_pow
      exact lt_of_lt_of_le hx (Nat.pow_le_pow_right (by norm_num) (by omega))
    simp [this, hi]

theorem writes_append (l1 l2 : List Event) : writes (l1 ++ l2) = writes l1 ++ writes l2 := by
  induction l1 with
  | nil => rfl
  | cons e l ih => cases e <;> simp [writes, ih]

theorem writes_replicate_read (r : Reg) (n : Nat) :
    writes (List.replicate n (Event.read r)) = [] := by
  induction n with
  | zero => rfl
  | succ n ih => simpa [List.replicate_succ, writes] using ih

/-- C17: a successful `uart_configure`, as a sequence of register accesses: the
first write goes to the control register and has the enable bit clear; then the
flag register is polled, and the last poll has seen the busy flag clear; only
then come the writes to the line-control and baud-divisor registers, the
control register still holding the value with the enable bit clear; the last
write of the call goes to the control register and has the enable bit set. -/
theorem uart_configure_sequence (k : Consts) (config : uart_config) (s : Uart)
    (hv : valid_config config) (hd : drains k.FR_BUSY s) :
    ∃ n v s1, uart_configure k config s = .ok (uart_error.UART_OK, s1) ∧
      s1.trace.drop s.trace.length =
        [Event.read Reg.CR, Event.write Reg.CR (s.CR &&& bnot32 k.CR_UARTEN)]
          ++ List.replicate n (Event.read Reg.FR)
          ++ [Event.read Reg.LCRH, Event.write Reg.LCRH (s.LCRH &&& bnot32 k.LCRH_FEN),
              Event.write Reg.IBRD (baud_divisor config.baudrate).1,
              Event.write Reg.FBRD (baud_divisor config.baudrate).2,
              Event.write Reg.LCRH (lcrh_value k config),
              Event.read Reg.IMSC, Event.write Reg.IMSC (s.IMSC ||| k.IMSC_RXIM),
              Event.irq_register_isr k.UART0_INTERRUPT,
              Event.read Reg.CR,
              Event.write Reg.CR ((s.CR &&& bnot32 k.CR_UARTEN) ||| k.CR_UARTEN)] ∧
      0 < n ∧ (s.FR :: s.frNext)[n - 1]? = some v ∧ v &&& k.FR_BUSY = 0 ∧
      writes (s1.trace.drop s.trace.length) =
        [(Reg.CR, s.CR &&& bnot32 k.CR_UARTEN),
         (Reg.LCRH, s.LCRH &&& bnot32 k.LCRH_FEN),
         (Reg.IBRD, (baud_divisor config.baudrate).1),
         (Reg.FBRD, (baud_divisor config.baudrate).2),
         (Reg.LCRH, lcrh_value k config),
         (Reg.IMSC, s.IMSC ||| k.IMSC_RXIM),
         (Reg.CR, (s.CR &&& bnot32 k.CR_UARTEN) ||| k.CR_UARTEN)] ∧
      (s.CR &&& bnot32 k.CR_UARTEN) &&& k.CR_UARTEN = 0 ∧
      ((s.CR &&& bnot32 k.CR_UARTEN) ||| k.CR_UARTEN) &&& k.CR_UARTEN = k.CR_UARTEN := by
  obtain ⟨n, v, s1, h, hn, hv2, hclear, htr⟩ := uart_configure_observes k config s hv hd
  have hdrop : s1.trace.drop s.trace.length = configureLog k config s n := by
    rw [htr]; simp
  refine ⟨n, v, s1, h, ?_, hn, hv2, hclear, ?_, and_bnot32_and_self _ _, or_and_self _ _⟩
  · rw [hdrop]; rfl
  · rw [hdrop]
    simp [configureLog, writes_append, writes_replicate_read, writes]

/-- C17, on a peripheral that is busy at the first poll and idle at the second. -/
theorem uart_configure_sequence_witness :
    valid_config ⟨8, 1, false, 9600⟩ ∧
    drains pl011.FR_BUSY { idle with CR := 0x301, FR := 0x8, frNext := [0] } ∧
    ∃ n v s1, uart_configure pl011 ⟨8, 1, false, 9600⟩
        { idle with CR := 0x301, FR := 0x8, frNext := [0] } = .ok (uart_error.UART_OK, s1) ∧
      0 < n ∧
      (({ idle with CR := 0x301, FR := 0x8, frNext := [0] } : Uart).FR ::
        ({ idle with CR := 0x301, FR := 0x8, frNext := [0] } : Uart).frNext)[n - 1]? = some v ∧
      v &&& pl011.FR_BUSY = 0 := by
  obtain ⟨n, v, s1, h, -, hn, hv, hclear, -, -, -⟩ :=
    uart_configure_sequence pl011 ⟨8, 1, false, 9600⟩
      { idle with CR := 0x301, FR := 0x8, frNext := [0] } (by decide) (by decide)
  exact ⟨by decide, by decide, n, v, s1, h, hn, hv, hclear⟩

/-- C18: after a successful `uart_configure` on 32-bit register contents, the
enable bit of the control register and the receive-interrupt mask bit of the
interrupt-mask register are set, and every other bit of these two registers is
as it was before the call. -/
theorem uart_configure_cr_imsc (k : Consts) (config : uart_config) (s : Uart)
    (hv : valid_config config) (hd : drains k.FR_BUSY s) (hcr : s.CR < 2 ^ 32) :
    ∃ s1, uart_configure k config s = .ok (uart_error.UART_OK, s1) ∧
      s1.CR &&& k.CR_UARTEN = k.CR_UARTEN ∧
      s1.IMSC &&& k.IMSC_RXIM = k.IMSC_RXIM ∧
      (∀ i, k.CR_UARTEN.testBit i = false → s1.CR.testBit i = s.CR.testBit i) ∧
      (∀ i, k.IMSC_RXIM.testBit i = false → s1.IMSC.testBit i = s.IMSC.testBit i) ∧
      s1.CR = s.CR ||| k.CR_UARTEN ∧ s1.IMSC = s.IMSC ||| k.IMSC_RXIM := by
  obtain ⟨n, fr, nx, -, h⟩ := uart_configure_ok k config s hv hd
  refine ⟨_, h, ?_, ?_, ?_, ?_, ?_, rfl⟩
  · exact or_and_self _ _
  · exact or_and_self _ _
  · intro i hi
    show ((s.CR &&& bnot32 k.CR_UARTEN) ||| k.CR_UARTEN).testBit i = s.CR.testBit i
    rw [and_bnot32_or_self _ _ hcr, Nat.testBit_or, hi, Bool.or_false]
  · intro i hi
    show (s.IMSC ||| k.IMSC_RXIM).testBit i = s.IMSC.testBit i
    rw [Nat.testBit_or, hi, Bool.or_false]
  · exact and_bnot32_or_self _ _ hcr

/-- C18, on a control register holding 0x300 and an interrupt mask holding 0x20. -/
theorem uart_configure_cr_imsc_witness :
    valid_config ⟨8, 1, false, 9600⟩ ∧
    drains pl011.FR_BUSY { idle with CR := 0x300, IMSC := 0x20 } ∧
    ({ idle with CR := 0x300, IMSC := 0x20 } : Uart).CR < 2 ^ 32 ∧
    ∃ s1, uart_configure pl011 ⟨8, 1, false, 9600⟩ { idle with CR := 0x300, IMSC := 0x20 }
        = .ok (uart_error.UART_OK, s1) ∧ s1.CR = 0x301 ∧ s1.IMSC = 0x30 := by
  obtain ⟨s1, h, -, -, -, -, h1, h2⟩ :=
    uart_configure_cr_imsc pl011 ⟨8, 1, false, 9600⟩ { idle with CR := 0x300, IMSC := 0x20 }
      (by decide) (by decide) (by decide)
  exact ⟨by decide, by decide, by decide, s1, h, h1, h2⟩

/-- The two divisor values together: 64 times the integer part plus the scaled
fraction is the quotient scaled by 64 and rounded to nearest. -/
theorem floor_scaled (x : ℚ) :
    64 * ⌊x⌋ + ⌊64 * Int.fract x + 1 / 2⌋ = ⌊64 * x + 1 / 2⌋ := by
  have h : 64 * Int.fract x + 1 / 2 = (64 * x + 1 / 2) - ((64 * ⌊x⌋ : ℤ) : ℚ) := by
    rw [← Int.self_sub_floor]; push_cast; ring
  rw [h, Int.floor_sub_int]
  ring

/-- C19: on every valid configuration the two divisor values written combine
into the quotient `refclock / (16 * baudrate)` rounded to the nearest multiple of
1/64: `64 * IBRD + FBRD` is the floor of `64 * refclock / (16 * baudrate) + 1/2`,
and `IBRD + FBRD / 64` is within 1/128 of the quotient. -/
theorem uart_configure_divisor_nearest (k : Consts) (config : uart_config) (s : Uart)
    (hv : valid_config config) (hd : drains k.FR_BUSY s) :
    ∃ s1, uart_configure k config s = .ok (uart_error.UART_OK, s1) ∧
      writesTo Reg.IBRD (s1.trace.drop s.trace.length) = [s1.IBRD] ∧
      writesTo Reg.FBRD (s1.trace.drop s.trace.length) = [s1.FBRD] ∧
      (64 * (s1.IBRD : ℤ) + (s1.FBRD : ℤ)
        = ⌊64 * ((refclock : ℚ) / (16 * config.baudrate)) + 1 / 2⌋) ∧
      |((s1.IBRD : ℚ) + (s1.FBRD : ℚ) / 64) - (refclock : ℚ) / (16 * config.baudrate)|
        ≤ 1 / 128 := by
  obtain ⟨n, fr, nx, -, h⟩ := uart_configure_ok k config s hv hd
  obtain ⟨e1, e2⟩ := baud_divisor_exact config.baudrate hv.2.2.1 hv.2.2.2
  have hclk : (refclock : ℚ) = 24000000 := by simp [refclock]
  have hsum : 64 * ((baud_divisor config.baudrate).1 : ℤ) + ((baud_divisor config.baudrate).2 : ℤ)
      = ⌊64 * ((24000000 : ℚ) / (16 * config.baudrate)) + 1 / 2⌋ := by
    rw [e1, e2]; exact floor_scaled _
  refine ⟨_, h, ?_, ?_, ?_, ?_⟩
  · simp [configureLog, writesTo_append, writesTo_replicate_read, writesTo]
  · simp [configureLog, writesTo_append, writesTo_replicate_read, writesTo]
  · rw [hclk]; exact hsum
  · rw [hclk]
    show |(((baud_divisor config.baudrate).1 : ℚ) + ((baud_divisor config.baudrate).2 : ℚ) / 64)
        - (24000000 : ℚ) / (16 * config.baudrate)| ≤ 1 / 128
    have hq : (64 : ℚ) * ((baud_divisor config.baudrate).1 : ℚ)
        + ((baud_divisor config.baudrate).2 : ℚ)
        = ((⌊64 * ((24000000 : ℚ) / (16 * config.baudrate)) + 1 / 2⌋ : ℤ) : ℚ) := by
      rw [← hsum]; push_cast; ring
    have h1 := Int.floor_le (64 * ((24000000 : ℚ) / (16 * config.baudrate)) + 1 / 2)
    have h2 := Int.lt_floor_add_one (64 * ((24000000 : ℚ) / (16 * config.baudrate)) + 1 / 2)
    rw [abs_le]
    constructor <;> linarith

/-- C19, at 307 baud, where the scaled fraction rounds up to 64. -/
theorem uart_configure_divisor_nearest_witness :
    valid_config ⟨8, 1, false, 307⟩ ∧ drains pl011.FR_BUSY idle ∧
    ∃ s1, uart_configure pl011 ⟨8, 1, false, 307⟩ idle = .ok (uart_error.UART_OK, s1) ∧
      (64 * (s1.IBRD : ℤ) + (s1.FBRD : ℤ)
        = ⌊64 * ((refclock : ℚ) / (16 * (307 : ℕ))) + 1 / 2⌋) := by
  obtain ⟨s1, h, -, -, hsum, -⟩ :=
    uart_configure_divisor_nearest pl011 ⟨8, 1, false, 307⟩ idle (by decide) (by decide)
  exact ⟨by decide, by decide, s1, h, hsum⟩

/-- C20: on every valid configuration the 32-bit product `16 * baudrate` does not
wrap, the integer divisor the code computes is the floor of
`refclock / (16 * baudrate)` and lies between 3 and 13636, so it is not zero and
the conversion to 16 bits keeps its value; it is the value written to the
integer-divisor register. -/
theorem uart_configure_ibrd_range (k : Consts) (config : uart_config) (s : Uart)
    (hv : valid_config config) (hd : drains k.FR_BUSY s) :
    16 * config.baudrate < 2 ^ 32 ∧ (16 * config.baudrate) % 2 ^ 32 = 16 * config.baudrate ∧
    trunc (modf (fl64 ((refclock : ℚ) / (((16 * config.baudrate) % 2 ^ 32 : ℕ) : ℚ)))).2
      = ⌊(refclock : ℚ) / (16 * config.baudrate)⌋ ∧
    3 ≤ ⌊(refclock : ℚ) / (16 * config.baudrate)⌋ ∧
    ⌊(refclock : ℚ) / (16 * config.baudrate)⌋ ≤ 13636 ∧
    (((⌊(refclock : ℚ) / (16 * config.baudrate)⌋).toNat % 2 ^ 16 : ℕ) : ℤ)
      = ⌊(refclock : ℚ) / (16 * config.baudrate)⌋ ∧
    ∃ s1, uart_configure k config s = .ok (uart_error.UART_OK, s1) ∧
      (s1.IBRD : ℤ) = ⌊(refclock : ℚ) / (16 * config.baudrate)⌋ ∧
      3 ≤ s1.IBRD ∧ s1.IBRD ≤ 13636 ∧ s1.IBRD ≠ 0 ∧ s1.IBRD < 2 ^ 16 := by
  obtain ⟨n, fr, nx, -, h⟩ := uart_configure_ok k config s hv hd
  obtain ⟨-, -, h110, hmax⟩ := hv
  obtain ⟨e1, -⟩ := baud_divisor_exact config.baudrate h110 hmax
  obtain ⟨c1, -⟩ := divisor_core config.baudrate h110 hmax
  have hclk : (refclock : ℚ) = 24000000 := by simp [refclock]
  have hb0 : (0 : ℚ) < config.baudrate := by exact_mod_cast (show 0 < config.baudrate by omega)
  have hb1 : (110 : ℚ) ≤ config.baudrate := by exact_mod_cast h110
  have hb2 : (config.baudrate : ℚ) ≤ 460800 := by exact_mod_cast hmax
  have hmod : (16 * config.baudrate) % 2 ^ 32 = 16 * config.baudrate :=
    Nat.mod_eq_of_lt (by omega)
  have hx0 : (0 : ℚ) ≤ (24000000 : ℚ) / (16 * config.baudrate) := by positivity
  have hlo : (3 : ℤ) ≤ ⌊(24000000 : ℚ) / (16 * config.baudrate)⌋ := by
    rw [Int.le_floor]
    rw [le_div_iff₀ (by positivity)]
    push_cast
    linarith
  have hhi : ⌊(24000000 : ℚ) / (16 * config.baudrate)⌋ ≤ 13636 := by
    have : ⌊(24000000 : ℚ) / (16 * config.baudrate)⌋ < 13637 := by
      rw [Int.floor_lt]
      rw [div_lt_iff₀ (by positivity)]
      push_cast
      linarith
    omega
  have hI : 3 ≤ (baud_divisor config.baudrate).1 ∧ (baud_divisor config.baudrate).1 ≤ 13636 := by
    constructor <;> omega
  rw [hclk]
  have hne : (baud_divisor config.baudrate).1 ≠ 0 := by omega
  have h16 : (baud_divisor config.baudrate).1 < 2 ^ 16 := by omega
  refine ⟨by omega, hmod, ?_, hlo, hhi, ?_, _, h, e1, hI.1, hI.2, hne, h16⟩
  · have hcast : (((16 * config.baudrate) % 2 ^ 32 : ℕ) : ℚ) = 16 * (config.baudrate : ℚ) := by
      rw [hmod]; push_cast; ring
    rw [hcast]
    have hq0 := fl64_nonneg _ hx0
    simp only [modf]
    rw [trunc_of_nonneg _ (by exact_mod_cast (Int.floor_nonneg.2
      (show (0 : ℚ) ≤ ((trunc (fl64 ((24000000 : ℚ) / (16 * config.baudrate))) : ℤ) : ℚ) by
        rw [trunc_of_nonneg _ hq0]; exact_mod_cast Int.floor_nonneg.2 hq0))),
      Int.floor_intCast, trunc_of_nonneg _ hq0, c1]
  · have : (⌊(24000000 : ℚ) / (16 * config.baudrate)⌋).toNat % 2 ^ 16
        = (⌊(24000000 : ℚ) / (16 * config.baudrate)⌋).toNat := by
      apply Nat.mod_eq_of_lt; omega
    rw [this, Int.toNat_of_nonneg (by omega)]

/-- C20, at the two ends of the accepted range: 13636 at 110 baud, 3 at 460800. -/
theorem uart_configure_ibrd_range_witness :
    valid_config ⟨8, 1, false, 110⟩ ∧ drains pl011.FR_BUSY idle ∧
    (∃ s1, uart_configure pl011 ⟨8, 1, false, 110⟩ idle = .ok (uart_error.UART_OK, s1) ∧
      3 ≤ s1.IBRD ∧ s1.IBRD ≤ 13636) ∧
    ⌊(24000000 : ℚ) / (16 * (110 : ℕ))⌋ = 13636 ∧ ⌊(24000000 : ℚ) / (16 * (460800 : ℕ))⌋ = 3 := by
  obtain ⟨-, -, -, -, -, -, s1, h, -, h3, h13636, -, -⟩ :=
    uart_configure_ibrd_range pl011 ⟨8, 1, false, 110⟩ idle (by decide) (by decide)
  refine ⟨by decide, by decide, ⟨s1, h, h3, h13636⟩, ?_, ?_⟩
  · rw [Int.floor_eq_iff]; norm_num
  · rw [Int.floor_eq_iff]; norm_num

end UartPl011
